import Mathlib

/-!
SecureBox solver: a shallow embedding of `Test_Final_Version/main.cpp`.

The program unlocks a grid of booleans by solving a linear system over GF(2).
`std::vector` values are lists, `uint32_t` values are natural numbers, and the
`uint32_t` products and sums that size and index the vectors are reduced modulo
`2 ^ 32` as the machine does.

An access outside a vector is undefined in C++.  The functions in which the wrap of
`rows * columns` can cause one (`Matrixb`, `generateInfluenceMatrix`, and `openBox`
through them) return `none` when it happens.  `gaussGF2` and `SecureBox::toggle` only
access in range on a square system and on in-range coordinates of a grid of the stored
dimensions; they are total functions here, reading with `List.getD` and writing with
`List.set`.

`openBox` builds its `SecureBox` from a clock-seeded shuffle; here the grid that the
constructor produced is an argument, and the run returns the flag together with the
toggle calls issued and the grid at the end.  The constructor and `shuffle` take the
coordinates that the generator drew as a list.
-/

namespace SecureBoxSolver

/-! ## Loops -/

/-- The loop `for (k = lo; k < hi; k++) s = body(k, s)`. -/
def forLoop {σ : Type} (lo hi : Nat) (body : Nat → σ → σ) (s : σ) : σ :=
  (List.range' lo (hi - lo)).foldl (fun s k => body k s) s

/-- The loop `for (k = n - 1; k >= 0; k--) s = body(k, s)` over a signed counter. -/
def forDown {σ : Type} (n : Nat) (body : Nat → σ → σ) (s : σ) : σ :=
  (List.range n).foldr (fun k s => body k s) s

/-- The loop `for (k = lo; k < hi; k++)` whose body may fail; a failure ends the run. -/
def forLoopM {σ : Type} (lo hi : Nat) (body : Nat → σ → Option σ) (s : σ) : Option σ :=
  (List.range' lo (hi - lo)).foldl (fun s k => s.bind (body k)) (some s)

/-! ## Vectors -/

/-- The modulus of `uint32_t` arithmetic. -/
def wordSize : Nat := 2 ^ 32

/-- The read `v[i]` of a vector of `uint32_t`. -/
def rd (v : List Nat) (i : Nat) : Nat := v.getD i 0

/-- The read `A[i][j]` of a vector of vectors. -/
def rd2 {α : Type} [Inhabited α] (A : List (List α)) (i j : Nat) : α :=
  (A.getD i []).getD j default

/-- The write `A[i][j] = v`. -/
def wr2 {α : Type} (A : List (List α)) (i j : Nat) (v : α) : List (List α) :=
  A.set i ((A.getD i []).set j v)

/-- The write `b[i] = v`, failing outside the vector. -/
def wrChecked (b : List Nat) (i : Nat) (v : Nat) : Option (List Nat) :=
  if i < b.length then some (b.set i v) else none

/-- The write `A[i][j] = v`, failing outside the matrix. -/
def wr2Checked (A : List (List Nat)) (i j : Nat) (v : Nat) : Option (List (List Nat)) :=
  if i < A.length ∧ j < (A.getD i []).length then some (wr2 A i j v) else none

/-- The read `state[i][j]`, failing outside the snapshot. -/
def rd2Checked (state : List (List Bool)) (i j : Nat) : Option Bool :=
  (state.get? i).bind (fun r => r.get? j)

/-! ## SecureBox -/

/-- The grid collaborator: its cells and its two dimensions. -/
structure SecureBox where
  box : List (List Bool)
  ySize : Nat
  xSize : Nat
deriving DecidableEq, Repr

/-- The statement `box[y][x] = !box[y][x]`. -/
def flipCell (b : List (List Bool)) (y x : Nat) : List (List Bool) :=
  wr2 b y x (!(rd2 b y x))

/-- `SecureBox::toggle`: one flip of `(y, x)`, then row `y`, then column `x`. -/
def SecureBox.toggle (s : SecureBox) (y x : Nat) : SecureBox :=
  let b0 := flipCell s.box y x
  let b1 := forLoop 0 s.xSize (fun i b => flipCell b y i) b0
  let b2 := forLoop 0 s.ySize (fun i b => flipCell b i x) b1
  { s with box := b2 }

/-- `SecureBox::isLocked`: some cell is set (columns outside, rows inside). -/
def SecureBox.isLocked (s : SecureBox) : Bool :=
  (List.range s.xSize).any (fun x => (List.range s.ySize).any (fun y => rd2 s.box y x))

/-- `SecureBox::getState`: a copy of the cells. -/
def SecureBox.getState (s : SecureBox) : List (List Bool) := s.box

/-! ## gaussGF2 -/

/-- The loop `A[i].push_back(b[i])` forming the augmented matrix. -/
def appendRhs (A : List (List Nat)) (b : List Nat) : List (List Nat) :=
  forLoop 0 A.length (fun i A => A.set i (A.getD i [] ++ [rd b i])) A

/-- The scan `while (pivot < n && A[pivot][col] == 0) pivot++`; the first argument
bounds the number of iterations. -/
def findPivot (A : List (List Nat)) (n col : Nat) : Nat → Nat → Nat
  | 0, pivot => pivot
  | fuel + 1, pivot =>
    if pivot < n ∧ rd2 A pivot col = 0 then findPivot A n col fuel (pivot + 1) else pivot

/-- The exchange `std::swap(A[row], A[pivot])`. -/
def swapRows (A : List (List Nat)) (row pivot : Nat) : List (List Nat) :=
  (A.set row (A.getD pivot [])).set pivot (A.getD row [])

/-- The loop `for (j = col; j <= n; j++) A[i][j] ^= A[row][j]`. -/
def xorRow (n col row i : Nat) (A : List (List Nat)) : List (List Nat) :=
  forLoop col (n + 1) (fun j A => wr2 A i j (rd2 A i j ^^^ rd2 A row j)) A

/-- The loop that clears column `col` in every row but the pivot row. -/
def eliminate (n col row : Nat) (A : List (List Nat)) : List (List Nat) :=
  forLoop 0 n (fun i A => if i ≠ row ∧ rd2 A i col = 1 then xorRow n col row i A else A) A

/-- One pass of the column loop on the pair (matrix, pivot-row pointer).  Once the
guard `row < n` fails the loop has ended, so the pass changes nothing. -/
def elimStep (n col : Nat) (st : List (List Nat) × Nat) : List (List Nat) × Nat :=
  if st.2 < n then
    let pivot := findPivot st.1 n col n st.2
    if pivot = n then st
    else (eliminate n col st.2 (swapRows st.1 st.2 pivot), st.2 + 1)
  else st

/-- The column loop `for (col = 0; col < n && row < n; col++)`. -/
def elimLoop (n : Nat) (A : List (List Nat)) : List (List Nat) × Nat :=
  forLoop 0 n (elimStep n) (A, 0)

/-- The test `A[i][n] == 1` for some row `i` from `row` on. -/
def inconsistent (n row : Nat) (A : List (List Nat)) : Bool :=
  (List.range' row (n - row)).any (fun i => decide (rd2 A i n = 1))

/-- The search for the first `j < n` with `A[i][j] == 1`; `none` stands for `-1`. -/
def pivotColOf (n i : Nat) (A : List (List Nat)) : Option Nat :=
  (List.range n).find? (fun j => decide (rd2 A i j = 1))

/-- The body of the back-substitution loop for row `i`. -/
def backStep (n : Nat) (A : List (List Nat)) (i : Nat) (x : List Nat) : List Nat :=
  match pivotColOf n i A with
  | none => x
  | some p =>
    x.set p (forLoop (p + 1) n (fun j sum => sum ^^^ (rd2 A i j &&& rd x j)) (rd2 A i n))

/-- The back-substitution loop, from the last row to the first. -/
def backSubst (n : Nat) (A : List (List Nat)) : List Nat :=
  forDown n (backStep n A) (List.replicate n 0)

/-- `gaussGF2`: Gaussian elimination modulo 2; the empty vector reports no solution.
The side `n` and the signed loop counter are exact for every matrix that fits in
memory, so they are natural numbers here. -/
def gaussGF2 (A : List (List Nat)) (b : List Nat) : List Nat :=
  let n := A.length
  let st := elimLoop n (appendRhs A b)
  if inconsistent n st.2 st.1 then [] else backSubst n st.1

/-! ## Matrixb, generateInfluenceMatrix, openBox -/

/-- `Matrixb`: the snapshot flattened row by row, `true` as 1 and `false` as 0. -/
def Matrixb (state : List (List Bool)) (rows columns : Nat) : Option (List Nat) :=
  let numberOfCells := (columns * rows) % wordSize
  forLoopM 0 rows (fun i b =>
    forLoopM 0 columns (fun j b =>
      (rd2Checked state i j).bind (fun v =>
        wrChecked b ((i * columns + j) % wordSize) (if v then 1 else 0))) b)
    (List.replicate numberOfCells 0)

/-- `generateInfluenceMatrix`: entry `(toggleIndex, cellIndex)` is 1 when the two
cells share a row or a column. -/
def generateInfluenceMatrix (rows columns : Nat) : Option (List (List Nat)) :=
  let numberOfCells := (columns * rows) % wordSize
  forLoopM 0 rows (fun i A =>
    forLoopM 0 columns (fun j A =>
      forLoopM 0 rows (fun i2 A =>
        forLoopM 0 columns (fun j2 A =>
          wr2Checked A ((i * columns + j) % wordSize) ((i2 * columns + j2) % wordSize)
            (if i = i2 ∨ j = j2 then 1 else 0)) A) A) A)
    (List.replicate numberOfCells (List.replicate numberOfCells 0))

/-- What a run of `openBox` leaves: the returned flag, the toggle calls issued in
order, and the grid at the end. -/
structure Outcome where
  locked : Bool
  toggles : List (Nat × Nat)
  final : SecureBox
deriving DecidableEq, Repr

/-- The loop of `openBox` that calls `toggle(i / x, i % x)` for every `sol[i] == 1`. -/
def applyToggles (y x : Nat) (sol : List Nat) (box : SecureBox) :
    SecureBox × List (Nat × Nat) :=
  forLoop 0 ((y * x) % wordSize)
    (fun i st => if rd sol i = 1 then (st.1.toggle (i / x) (i % x), st.2 ++ [(i / x, i % x)])
      else st)
    (box, [])

/-- `openBox` run on the grid `box` that the constructor `SecureBox(y, x)` produced. -/
def openBox (y x : Nat) (box : SecureBox) : Option Outcome :=
  (Matrixb box.getState y x).bind (fun martixb =>
    (generateInfluenceMatrix y x).bind (fun matrixA =>
      let sol := gaussGF2 matrixA martixb
      if sol.isEmpty then some ⟨true, [], box⟩
      else
        let st := applyToggles y x sol box
        some ⟨st.1.isLocked, st.2, st.1⟩))

/-! ## Predicates and values used in the statements -/

/-- A vector of `r` vectors of length `c` each. -/
def Shaped {α : Type} (r c : Nat) (A : List (List α)) : Prop :=
  A.length = r ∧ ∀ i, i < r → (A.getD i []).length = c

/-- The value `Matrixb` stores for a cell. -/
def bitOf (v : Bool) : Nat := if v then 1 else 0

/-- The entry the builder stores for the toggle cell `(a, b)` and the target cell `(c, d)`. -/
def influence (a b c d : Nat) : Nat := if a = c ∨ b = d then 1 else 0

/-- The four loop counters `(a, b, c, d)` come before `(i, j, i2, j2)` in the order in
which the builder visits them. -/
def Before (a b c d i j i2 j2 : Nat) : Prop :=
  a < i ∨ (a = i ∧ (b < j ∨ (b = j ∧ (c < i2 ∨ (c = i2 ∧ d < j2)))))

/-- The state of the builder when its counters stand at `(i, j, i2, j2)`: the matrix has
its final shape and every entry visited so far has its value. -/
def GenInv (rows columns i j i2 j2 : Nat) (A : List (List Nat)) : Prop :=
  Shaped (rows * columns) (rows * columns) A ∧
  ∀ a b c d, a < rows → b < columns → c < rows → d < columns → Before a b c d i j i2 j2 →
    rd2 A (a * columns + b) (c * columns + d) = influence a b c d

/-- Every entry of the augmented matrix of side `n` is 0 or 1. -/
def Bits (n : Nat) (M : List (List Nat)) : Prop :=
  ∀ i j, i < n → j ≤ n → rd2 M i j < 2

/-- The entry `M[i][j]` as an element of GF(2). -/
def ent (M : List (List Nat)) (i j : Nat) : ZMod 2 := ((rd2 M i j : Nat) : ZMod 2)

/-- Row `i` of the augmented matrix `M`, read as an equation over GF(2), holds at `x`. -/
def RowSat (M : List (List Nat)) (n i : Nat) (x : Nat → ZMod 2) : Prop :=
  Finset.sum (Finset.range n) (fun j => ent M i j * x j) = ent M i n

/-- Every row of the augmented matrix holds at `x`. -/
def Sat (M : List (List Nat)) (n : Nat) (x : Nat → ZMod 2) : Prop :=
  ∀ i, i < n → RowSat M n i x

/-- The state of the column loop before column `col`: the system has the solutions of
the original one, the rows from the pivot-row pointer on are zero in the columns
passed, and every row above the pointer has a pivot column that is zero elsewhere. -/
structure EInv (n : Nat) (M0 : List (List Nat)) (col : Nat) (st : List (List Nat) × Nat) :
    Prop where
  shaped : Shaped n (n + 1) st.1
  bits : Bits n st.1
  row_le : st.2 ≤ col
  sat : ∀ x, Sat st.1 n x ↔ Sat M0 n x
  below : ∀ i j, st.2 ≤ i → i < n → j < col → rd2 st.1 i j = 0
  pivots : ∀ r, r < st.2 → ∃ p, p < col ∧ rd2 st.1 r p = 1 ∧
    (∀ j, j < p → rd2 st.1 r j = 0) ∧ ∀ i, i < n → i ≠ r → rd2 st.1 i p = 0

/-- A vector of `uint32_t` read as a vector over GF(2). -/
def vec (x : List Nat) : Nat → ZMod 2 := fun j => ((rd x j : Nat) : ZMod 2)

/-- An `n`×`n` matrix with entries in {0, 1}. -/
def BitMatrix (n : Nat) (A : List (List Nat)) : Prop :=
  Shaped n n A ∧ ∀ i, i < n → ∀ j, j < n → rd2 A i j < 2

/-- A vector of length `n` with entries in {0, 1}. -/
def BitVector (n : Nat) (b : List Nat) : Prop :=
  b.length = n ∧ ∀ i, i < n → rd b i < 2

/-- The XOR over `j < n` of `row[j] AND x[j]`: one component of `A·x` modulo 2. -/
def dotGF2 (n : Nat) (row x : List Nat) : Nat :=
  forLoop 0 n (fun j acc => acc ^^^ (rd row j &&& rd x j)) 0

/-- The vector `x` is a bit vector of the side of `A` with `A·x = b` modulo 2: in every
row `i` the XOR over `j` of `A[i][j] AND x[j]` equals `b[i]`. -/
def Solves (A : List (List Nat)) (x b : List Nat) : Prop :=
  BitVector A.length x ∧ ∀ i, i < A.length → dotGF2 A.length (A.getD i []) x = rd b i

instance instDecidableShaped {α : Type} (r c : Nat) (A : List (List α)) :
    Decidable (Shaped r c A) := by
  unfold Shaped; infer_instance

instance instDecidableBitMatrix (n : Nat) (A : List (List Nat)) : Decidable (BitMatrix n A) := by
  unfold BitMatrix; infer_instance

instance instDecidableBitVector (n : Nat) (b : List Nat) : Decidable (BitVector n b) := by
  unfold BitVector; infer_instance

instance instDecidableSolves (A : List (List Nat)) (x b : List Nat) :
    Decidable (Solves A x b) := by
  unfold Solves; infer_instance

/-- A cell as an element of GF(2). -/
def cellBit (v : Bool) : ZMod 2 := if v then 1 else 0

/-- The 2×2 grid with the two diagonal cells set. -/
def diagonalBox : SecureBox := ⟨[[true, false], [false, true]], 2, 2⟩

/-- The 1×2 grid with only its first cell set. -/
def oneByTwoBox : SecureBox := ⟨[[true, false]], 1, 2⟩

/-- The 2×3 grid `[[1, 1, 0], [0, 1, 1]]`, which four toggles clear. -/
def twoByThreeBox : SecureBox := ⟨[[true, true, false], [false, true, true]], 2, 3⟩

/-- The 2×1 grid with only its first cell set. -/
def twoByOneBox : SecureBox := ⟨[[true], [false]], 2, 1⟩

/-- The 1×3 grid with only its first cell set. -/
def oneByThreeBox : SecureBox := ⟨[[true, false, false]], 1, 3⟩

/-- A sequence of `toggle` calls, in the order of the list. -/
def SecureBox.toggleAll (s : SecureBox) (l : List (Nat × Nat)) : SecureBox :=
  l.foldl (fun s p => s.toggle p.1 p.2) s

/-- Every coordinate of the list lies inside the grid. -/
def InRange (s : SecureBox) (l : List (Nat × Nat)) : Prop :=
  ∀ p, p ∈ l → p.1 < s.ySize ∧ p.2 < s.xSize

instance instDecidableInRange (s : SecureBox) (l : List (Nat × Nat)) :
    Decidable (InRange s l) := by
  unfold InRange; infer_instance

/-- The 1×1 grid with its cell in state `v`. -/
def oneByOneBox (v : Bool) : SecureBox := ⟨[[v]], 1, 1⟩

/-- The influence matrix of the 2×2 grid: all ones except on the anti-diagonal. -/
def influence2x2 : List (List Nat) :=
  [[1, 1, 1, 0], [1, 1, 0, 1], [1, 0, 1, 1], [0, 1, 1, 1]]

/-- The 4×4 matrix of ones. -/
def allOnes4 : List (List Nat) :=
  [[1, 1, 1, 1], [1, 1, 1, 1], [1, 1, 1, 1], [1, 1, 1, 1]]

/-- The vector over GF(2) that expresses column `j` through the columns before it with
the coefficients `c`: `c` before `j`, 1 at `j`, 0 after. -/
def relationVec (j : Nat) (c : List Nat) : Nat → ZMod 2 :=
  fun k => if k < j then vec c k else if k = j then 1 else 0

theorem forLoop_succ {σ : Type} (lo hi : Nat) (body : Nat → σ → σ) (s : σ) (h : lo ≤ hi) :
    forLoop lo (hi + 1) body s = body hi (forLoop lo hi body s) := by
  unfold forLoop
  have h1 : hi + 1 - lo = (hi - lo) + 1 := by omega
  rw [h1, List.range'_1_concat, List.foldl_append]
  have h2 : lo + (hi - lo) = hi := by omega
  simp [h2]

theorem forLoop_empty {σ : Type} (lo hi : Nat) (body : Nat → σ → σ) (s : σ) (h : hi ≤ lo) :
    forLoop lo hi body s = s := by
  unfold forLoop
  have h1 : hi - lo = 0 := by omega
  simp [h1]

/-- Invariant rule for `forLoop`. -/
theorem forLoop_inv {σ : Type} (I : Nat → σ → Prop) (lo hi : Nat) (body : Nat → σ → σ) (s : σ)
    (hle : lo ≤ hi) (h0 : I lo s)
    (hstep : ∀ k t, lo ≤ k → k < hi → I k t → I (k + 1) (body k t)) :
    I hi (forLoop lo hi body s) := by
  induction hi with
  | zero =>
    have : lo = 0 := by omega
    subst this
    simpa [forLoop] using h0
  | succ m ih =>
    rcases Nat.eq_or_lt_of_le hle with h | h
    · subst h
      rw [forLoop_empty _ _ _ _ (le_refl _)]
      exact h0
    · have hm : lo ≤ m := by omega
      rw [forLoop_succ _ _ _ _ hm]
      exact hstep m _ hm (by omega) (ih hm (fun k t h1 h2 h3 => hstep k t h1 (by omega) h3))

theorem forDown_succ {σ : Type} (n : Nat) (body : Nat → σ → σ) (s : σ) :
    forDown (n + 1) body s = forDown n body (body n s) := by
  unfold forDown
  rw [List.range_succ, List.foldr_append]
  simp

/-- Invariant rule for `forDown`: the counter runs from `n - 1` down to `0`. -/
theorem forDown_inv {σ : Type} (I : Nat → σ → Prop) (n : Nat) (body : Nat → σ → σ) (s : σ)
    (h0 : I n s) (hstep : ∀ k t, k < n → I (k + 1) t → I k (body k t)) :
    I 0 (forDown n body s) := by
  induction n generalizing s with
  | zero => simpa [forDown] using h0
  | succ m ih =>
    rw [forDown_succ]
    exact ih _ (hstep m s (by omega) h0) (fun k t h1 h2 => hstep k t (by omega) h2)

theorem forLoopM_succ {σ : Type} (lo hi : Nat) (body : Nat → σ → Option σ) (s : σ)
    (h : lo ≤ hi) :
    forLoopM lo (hi + 1) body s = (forLoopM lo hi body s).bind (body hi) := by
  unfold forLoopM
  have h1 : hi + 1 - lo = (hi - lo) + 1 := by omega
  rw [h1, List.range'_1_concat, List.foldl_append]
  have h2 : lo + (hi - lo) = hi := by omega
  simp [h2]

theorem forLoopM_empty {σ : Type} (lo hi : Nat) (body : Nat → σ → Option σ) (s : σ)
    (h : hi ≤ lo) : forLoopM lo hi body s = some s := by
  unfold forLoopM
  have h1 : hi - lo = 0 := by omega
  simp [h1]

/-- Total-correctness rule for `forLoopM`: a body that succeeds under the invariant
makes the loop succeed. -/
theorem forLoopM_inv {σ : Type} (I : Nat → σ → Prop) (lo hi : Nat) (body : Nat → σ → Option σ)
    (s : σ) (hle : lo ≤ hi) (h0 : I lo s)
    (hstep : ∀ k t, lo ≤ k → k < hi → I k t → ∃ u, body k t = some u ∧ I (k + 1) u) :
    ∃ u, forLoopM lo hi body s = some u ∧ I hi u := by
  induction hi with
  | zero =>
    have : lo = 0 := by omega
    subst this
    exact ⟨s, forLoopM_empty _ _ _ _ (le_refl _), h0⟩
  | succ m ih =>
    rcases Nat.eq_or_lt_of_le hle with h | h
    · subst h
      exact ⟨s, forLoopM_empty _ _ _ _ (le_refl _), h0⟩
    · have hm : lo ≤ m := by omega
      obtain ⟨u, hu, hI⟩ := ih hm (fun k t h1 h2 h3 => hstep k t h1 (by omega) h3)
      obtain ⟨v, hv, hI2⟩ := hstep m u hm (by omega) hI
      exact ⟨v, by rw [forLoopM_succ _ _ _ _ hm, hu]; simpa using hv, hI2⟩

/-- Partial-correctness rule for `forLoopM`: what a successful run establishes. -/
theorem forLoopM_post {σ : Type} (I : Nat → σ → Prop) (lo hi : Nat) (body : Nat → σ → Option σ)
    (s : σ) (hle : lo ≤ hi) (h0 : I lo s)
    (hstep : ∀ k t u, lo ≤ k → k < hi → I k t → body k t = some u → I (k + 1) u)
    (r : σ) (hr : forLoopM lo hi body s = some r) : I hi r := by
  induction hi generalizing r with
  | zero =>
    have : lo = 0 := by omega
    subst this
    rw [forLoopM_empty _ _ _ _ (le_refl _)] at hr
    cases hr
    exact h0
  | succ m ih =>
    rcases Nat.eq_or_lt_of_le hle with h | h
    · subst h
      rw [forLoopM_empty _ _ _ _ (le_refl _)] at hr
      cases hr
      exact h0
    · have hm : lo ≤ m := by omega
      rw [forLoopM_succ _ _ _ _ hm] at hr
      cases hmid : forLoopM lo m body s with
      | none => rw [hmid] at hr; simp at hr
      | some u =>
        rw [hmid] at hr
        exact hstep m u r hm (by omega)
          (ih hm (fun k t u h1 h2 h3 h4 => hstep k t u h1 (by omega) h3 h4) u hmid)
          (by simpa using hr)

/-! ## Reads and writes -/

theorem getD_set_row {α : Type} (A : List (List α)) (i k : Nat) (row : List α)
    (h : i < A.length) : (A.set i row).getD k [] = if k = i then row else A.getD k [] := by
  simp only [List.getD_eq_getElem?_getD, List.getElem?_set]
  by_cases hk : k = i
  · subst hk; simp [h]
  · have : ¬ i = k := fun e => hk e.symm
    simp [hk, this]

theorem getD_set_val {α : Type} (l : List α) (j k : Nat) (v d : α) (h : j < l.length) :
    (l.set j v).getD k d = if k = j then v else l.getD k d := by
  simp only [List.getD_eq_getElem?_getD, List.getElem?_set]
  by_cases hk : k = j
  · subst hk; simp [h]
  · have : ¬ j = k := fun e => hk e.symm
    simp [hk, this]

theorem rd2_wr2 {α : Type} [Inhabited α] (A : List (List α)) (i j k l : Nat) (v : α)
    (hi : i < A.length) (hj : j < (A.getD i []).length) :
    rd2 (wr2 A i j v) k l = if k = i ∧ l = j then v else rd2 A k l := by
  unfold rd2 wr2
  rw [getD_set_row A i k _ hi]
  by_cases hk : k = i
  · subst hk
    simp only [if_true, true_and]
    exact getD_set_val _ _ _ _ _ hj
  · simp [hk]

theorem shaped_wr2 {α : Type} {r c : Nat} {A : List (List α)} (h : Shaped r c A)
    (i j : Nat) (v : α) : Shaped r c (wr2 A i j v) := by
  obtain ⟨h1, h2⟩ := h
  refine ⟨by simp [wr2, h1], fun k hk => ?_⟩
  unfold wr2
  by_cases hi : i < A.length
  · rw [getD_set_row A i k _ hi]
    by_cases hki : k = i
    · subst hki
      rw [if_pos rfl, List.length_set]
      exact h2 k hk
    · rw [if_neg hki]
      exact h2 k hk
  · have : A.set i ((A.getD i []).set j v) = A := List.set_eq_of_length_le (by omega)
    rw [this]
    exact h2 k hk

/-! ## The toggle operation -/

theorem shaped_flipCell {R C : Nat} {b : List (List Bool)} (h : Shaped R C b) (y x : Nat) :
    Shaped R C (flipCell b y x) := shaped_wr2 h y x _

theorem rd2_flipCell {R C : Nat} {b : List (List Bool)} (h : Shaped R C b) (y x r c : Nat)
    (hy : y < R) (hx : x < C) :
    rd2 (flipCell b y x) r c = if r = y ∧ c = x then !(rd2 b r c) else rd2 b r c := by
  unfold flipCell
  rw [rd2_wr2 b y x r c _ (by rw [h.1]; exact hy) (by rw [h.2 y hy]; exact hx)]
  by_cases hrc : r = y ∧ c = x
  · obtain ⟨h1, h2⟩ := hrc
    subst h1; subst h2
    simp
  · simp [hrc]

/-- The row loop of `toggle` negates the first `k` cells of row `y`. -/
theorem flipRow_loop {R C : Nat} (b0 : List (List Bool)) (h : Shaped R C b0) (y k : Nat)
    (hy : y < R) (hk : k ≤ C) :
    Shaped R C (forLoop 0 k (fun i b => flipCell b y i) b0) ∧
    ∀ r c, rd2 (forLoop 0 k (fun i b => flipCell b y i) b0) r c =
      if r = y ∧ c < k then !(rd2 b0 r c) else rd2 b0 r c := by
  refine forLoop_inv
    (fun m b => Shaped R C b ∧ ∀ r c, rd2 b r c = if r = y ∧ c < m then !(rd2 b0 r c) else rd2 b0 r c)
    0 k _ b0 (Nat.zero_le _) ⟨h, fun r c => by simp⟩ ?_
  intro m b _ hm ⟨hb, hrd⟩
  refine ⟨shaped_flipCell hb _ _, fun r c => ?_⟩
  rw [rd2_flipCell hb y m r c hy (by omega), hrd r c]
  by_cases hr : r = y
  · rcases Nat.lt_trichotomy c m with hc | hc | hc
    · have h1 : ¬ c = m := by omega
      have h2 : c < m + 1 := by omega
      simp [hr, h1, h2, hc]
    · subst hc; simp [hr]
    · have h1 : ¬ c = m := by omega
      have h2 : ¬ c < m + 1 := by omega
      have h3 : ¬ c < m := by omega
      simp [hr, h1, h2, h3]
  · simp [hr]

/-- The column loop of `toggle` negates the first `k` cells of column `x`. -/
theorem flipCol_loop {R C : Nat} (b0 : List (List Bool)) (h : Shaped R C b0) (x k : Nat)
    (hx : x < C) (hk : k ≤ R) :
    Shaped R C (forLoop 0 k (fun i b => flipCell b i x) b0) ∧
    ∀ r c, rd2 (forLoop 0 k (fun i b => flipCell b i x) b0) r c =
      if r < k ∧ c = x then !(rd2 b0 r c) else rd2 b0 r c := by
  refine forLoop_inv
    (fun m b => Shaped R C b ∧ ∀ r c, rd2 b r c = if r < m ∧ c = x then !(rd2 b0 r c) else rd2 b0 r c)
    0 k _ b0 (Nat.zero_le _) ⟨h, fun r c => by simp⟩ ?_
  intro m b _ hm ⟨hb, hrd⟩
  refine ⟨shaped_flipCell hb _ _, fun r c => ?_⟩
  rw [rd2_flipCell hb m x r c (by omega) hx, hrd r c]
  by_cases hc : c = x
  · rcases Nat.lt_trichotomy r m with hr | hr | hr
    · have h1 : ¬ r = m := by omega
      have h2 : r < m + 1 := by omega
      simp [hc, h1, h2, hr]
    · subst hr; simp [hc]
    · have h1 : ¬ r = m := by omega
      have h2 : ¬ r < m + 1 := by omega
      have h3 : ¬ r < m := by omega
      simp [hc, h1, h2, h3]
  · simp [hc]

/-- What `toggle` does to a well-shaped grid at an in-range coordinate. -/
theorem toggle_cells (s : SecureBox) (y x : Nat) (hs : Shaped s.ySize s.xSize s.box)
    (hy : y < s.ySize) (hx : x < s.xSize) :
    Shaped s.ySize s.xSize (s.toggle y x).box ∧
    ∀ r c, r < s.ySize → c < s.xSize →
      rd2 (s.toggle y x).box r c = if r = y ∨ c = x then !(rd2 s.box r c) else rd2 s.box r c := by
  have h0 := shaped_flipCell hs y x
  have hrow := flipRow_loop (flipCell s.box y x) h0 y s.xSize hy (le_refl _)
  have hcol := flipCol_loop _ hrow.1 x s.ySize hx (le_refl _)
  refine ⟨hcol.1, fun r c hr hc => ?_⟩
  show rd2 (forLoop 0 s.ySize (fun i b => flipCell b i x)
    (forLoop 0 s.xSize (fun i b => flipCell b y i) (flipCell s.box y x))) r c = _
  rw [hcol.2 r c, hrow.2 r c, rd2_flipCell hs y x r c hy hx]
  by_cases h1 : r = y <;> by_cases h2 : c = x <;> simp [h1, h2, hr, hc, hy, hx]

/-! ## Cell indices -/

theorem cell_index_lt {R C i j : Nat} (hi : i < R) (hj : j < C) : i * C + j < R * C := by
  have h1 : (i + 1) * C ≤ R * C := Nat.mul_le_mul_right C hi
  have h2 : (i + 1) * C = i * C + C := by ring
  omega

theorem cell_index_div {C i j : Nat} (hj : j < C) : (i * C + j) / C = i := by
  have hC : 0 < C := by omega
  rw [Nat.add_comm, Nat.add_mul_div_right _ _ hC, Nat.div_eq_of_lt hj, Nat.zero_add]

theorem cell_index_mod {C i j : Nat} (hj : j < C) : (i * C + j) % C = j := by
  rw [Nat.add_comm, Nat.add_mul_mod_self_right, Nat.mod_eq_of_lt hj]

theorem cell_index_inj {C r c i j : Nat} (hc : c < C) (hj : j < C)
    (h : r * C + c = i * C + j) : r = i ∧ c = j := by
  have h1 := congrArg (fun k => k / C) h
  have h2 := congrArg (fun k => k % C) h
  simp only [cell_index_div hc, cell_index_div hj, cell_index_mod hc, cell_index_mod hj] at h1 h2
  exact ⟨h1, h2⟩

theorem cell_index_decode {R C k : Nat} (hk : k < R * C) :
    k / C < R ∧ k % C < C ∧ (k / C) * C + k % C = k := by
  have hC : 0 < C := by
    rcases Nat.eq_zero_or_pos C with h | h
    · subst h; simp at hk
    · exact h
  refine ⟨Nat.div_lt_of_lt_mul (by rw [Nat.mul_comm]; exact hk), Nat.mod_lt _ hC, ?_⟩
  have := Nat.div_add_mod k C
  rw [Nat.mul_comm] at this
  exact this

/-- Failure rule for `forLoopM`: a pass that fails in every state the loop can be in
makes the loop fail. -/
theorem forLoopM_fail {σ : Type} (P : σ → Prop) (lo hi k0 : Nat) (body : Nat → σ → Option σ)
    (s : σ) (hlo : lo ≤ k0) (hk : k0 < hi) (h0 : P s)
    (hpres : ∀ k t u, P t → body k t = some u → P u)
    (hfail : ∀ t, P t → body k0 t = none) : forLoopM lo hi body s = none := by
  cases hres : forLoopM lo hi body s with
  | none => rfl
  | some r =>
    exfalso
    have := forLoopM_post (fun k t => P t ∧ k ≤ k0) lo hi body s (by omega) ⟨h0, hlo⟩
      (fun k t u _ _ hI hb => by
        refine ⟨hpres k t u hI.1 hb, ?_⟩
        rcases Nat.eq_or_lt_of_le hI.2 with h | h
        · subst h
          rw [hfail t hI.1] at hb
          cases hb
        · omega) r hres
    omega

/-! ## Matrixb -/

theorem rd2Checked_shaped {R C : Nat} {state : List (List Bool)} (h : Shaped R C state)
    {i j : Nat} (hi : i < R) (hj : j < C) : rd2Checked state i j = some (rd2 state i j) := by
  unfold rd2Checked rd2
  have h1 : i < state.length := by rw [h.1]; exact hi
  have h2 := h.2 i hi
  rw [List.getD_eq_getElem _ _ h1] at h2 ⊢
  have h3 : j < (state[i]).length := by rw [h2]; exact hj
  simp [List.get?_eq_getElem?, List.getElem?_eq_getElem h1, List.getElem?_eq_getElem h3,
    List.getD_eq_getElem _ _ h3]

/-- `Matrixb` succeeds when the product of the dimensions fits in a `uint32_t`, and
then holds the snapshot row by row. -/
theorem Matrixb_total (state : List (List Bool)) (rows columns : Nat)
    (hst : Shaped rows columns state) (hN : rows * columns < wordSize) :
    ∃ b, Matrixb state rows columns = some b ∧ b.length = rows * columns ∧
      ∀ r c, r < rows → c < columns → rd b (r * columns + c) = bitOf (rd2 state r c) := by
  have hn : (columns * rows) % wordSize = rows * columns := by
    rw [Nat.mul_comm, Nat.mod_eq_of_lt hN]
  obtain ⟨b, hb, hlen, hval⟩ := forLoopM_inv
    (fun i (b : List Nat) => b.length = rows * columns ∧
      ∀ r c, r < i → c < columns → rd b (r * columns + c) = bitOf (rd2 state r c))
    0 rows
    (fun i b => forLoopM 0 columns (fun j b =>
      (rd2Checked state i j).bind (fun v =>
        wrChecked b ((i * columns + j) % wordSize) (if v then 1 else 0))) b)
    (List.replicate ((columns * rows) % wordSize) 0) (Nat.zero_le _)
    ⟨by simp [hn], fun r c hr => by omega⟩
    (fun i b _ hi hI => by
      obtain ⟨u, hu, hlen, hval⟩ := forLoopM_inv
        (fun j (u : List Nat) => u.length = rows * columns ∧
          ∀ r c, c < columns → (r < i ∨ (r = i ∧ c < j)) →
            rd u (r * columns + c) = bitOf (rd2 state r c))
        0 columns
        (fun j b => (rd2Checked state i j).bind (fun v =>
          wrChecked b ((i * columns + j) % wordSize) (if v then 1 else 0)))
        b (Nat.zero_le _)
        ⟨hI.1, fun r c hc h => by
          rcases h with h | h
          · exact hI.2 r c h hc
          · omega⟩
        (fun j u _ hj hJ => by
          have hidx : i * columns + j < rows * columns := cell_index_lt hi hj
          have hmod : (i * columns + j) % wordSize = i * columns + j :=
            Nat.mod_eq_of_lt (by omega)
          have hlt : i * columns + j < u.length := by rw [hJ.1]; exact hidx
          refine ⟨u.set (i * columns + j) (bitOf (rd2 state i j)), ?_, ?_, ?_⟩
          · dsimp only
            rw [rd2Checked_shaped hst hi hj, hmod]
            simp [wrChecked, hlt, bitOf]
          · simp [hJ.1]
          · intro r c hc h
            unfold rd
            rw [getD_set_val _ _ _ _ _ hlt]
            by_cases he : r * columns + c = i * columns + j
            · obtain ⟨h1, h2⟩ := cell_index_inj hc hj he
              subst h1; subst h2
              simp
            · rw [if_neg he]
              have h3 : r < i ∨ (r = i ∧ c < j) := by
                rcases h with h | ⟨h, h4⟩
                · exact Or.inl h
                · refine Or.inr ⟨h, ?_⟩
                  rcases Nat.lt_or_ge c j with h5 | h5
                  · exact h5
                  · have : c = j := by omega
                    subst this; subst h
                    exact absurd rfl he
              exact hJ.2 r c hc h3)
      refine ⟨u, hu, hlen, fun r c hr hc => hval r c hc ?_⟩
      rcases Nat.lt_or_ge r i with h | h
      · exact Or.inl h
      · exact Or.inr ⟨by omega, hc⟩)
  exact ⟨b, hb, hlen, hval⟩

theorem wrChecked_length {b u : List Nat} {i v : Nat} (h : wrChecked b i v = some u) :
    u.length = b.length := by
  unfold wrChecked at h
  split at h
  · cases h; simp
  · cases h

/-- `Matrixb` fails when the product of the dimensions does not fit in a `uint32_t`:
some write lands outside the vector. -/
theorem Matrixb_overflow (state : List (List Bool)) (rows columns : Nat)
    (hN : wordSize ≤ rows * columns) : Matrixb state rows columns = none := by
  have hlt : (columns * rows) % wordSize < wordSize := Nat.mod_lt _ (by decide)
  obtain ⟨h1, h2, h3⟩ := cell_index_decode (R := rows) (C := columns)
    (k := (columns * rows) % wordSize) (by omega)
  refine forLoopM_fail (fun (b : List Nat) => b.length = (columns * rows) % wordSize) 0 rows
    (((columns * rows) % wordSize) / columns) _ _ (Nat.zero_le _) h1 (by simp) ?_ ?_
  · intro i t u ht hu
    exact forLoopM_post (fun _ (b : List Nat) => b.length = (columns * rows) % wordSize)
      0 columns _ t (Nat.zero_le _) ht
      (fun j b v _ _ hb hv => by
        cases hrd : rd2Checked state i j with
        | none => rw [hrd] at hv; cases hv
        | some w =>
          rw [hrd] at hv
          rw [wrChecked_length hv]
          exact hb) u hu
  · intro t ht
    refine forLoopM_fail (fun (b : List Nat) => b.length = (columns * rows) % wordSize) 0 columns
      (((columns * rows) % wordSize) % columns) _ _ (Nat.zero_le _) h2 ht ?_ ?_
    · intro j b v hb hv
      cases hrd : rd2Checked state (((columns * rows) % wordSize) / columns) j with
      | none => rw [hrd] at hv; cases hv
      | some w =>
        rw [hrd] at hv
        rw [wrChecked_length hv]
        exact hb
    · intro b hb
      rw [h3, Nat.mod_eq_of_lt hlt]
      cases hrd : rd2Checked state (((columns * rows) % wordSize) / columns)
        (((columns * rows) % wordSize) % columns) with
      | none => rfl
      | some w => simp [wrChecked, hb]

/-! ## generateInfluenceMatrix -/

theorem GenInv_mono {rows columns i j i2 j2 k l k2 l2 : Nat} {A : List (List Nat)}
    (h : GenInv rows columns i j i2 j2 A)
    (hW : ∀ a b c d, a < rows → b < columns → c < rows → d < columns →
      Before a b c d k l k2 l2 → Before a b c d i j i2 j2) :
    GenInv rows columns k l k2 l2 A :=
  ⟨h.1, fun a b c d ha hb hc hd hB => h.2 a b c d ha hb hc hd (hW a b c d ha hb hc hd hB)⟩

theorem shaped_replicate {α : Type} (r c : Nat) (v : α) :
    Shaped r c (List.replicate r (List.replicate c v)) := by
  refine ⟨by simp, fun i hi => ?_⟩
  simp [List.getD_eq_getElem?_getD, List.getElem?_replicate, hi]

/-- The innermost statement of the builder, in range. -/
theorem influence_write {rows columns i j i2 j2 : Nat} {A : List (List Nat)}
    (hN : rows * columns < wordSize) (hi : i < rows) (hj : j < columns) (hi2 : i2 < rows)
    (hj2 : j2 < columns) (h : GenInv rows columns i j i2 j2 A) :
    ∃ u, wr2Checked A ((i * columns + j) % wordSize) ((i2 * columns + j2) % wordSize)
        (if i = i2 ∨ j = j2 then 1 else 0) = some u ∧ GenInv rows columns i j i2 (j2 + 1) u := by
  have ht : i * columns + j < rows * columns := cell_index_lt hi hj
  have hc : i2 * columns + j2 < rows * columns := cell_index_lt hi2 hj2
  rw [Nat.mod_eq_of_lt (by omega : i * columns + j < wordSize),
    Nat.mod_eq_of_lt (by omega : i2 * columns + j2 < wordSize)]
  have h1 : i * columns + j < A.length := by rw [h.1.1]; exact ht
  have h2 : i2 * columns + j2 < (A.getD (i * columns + j) []).length := by
    rw [h.1.2 _ ht]; exact hc
  refine ⟨wr2 A (i * columns + j) (i2 * columns + j2) (if i = i2 ∨ j = j2 then 1 else 0),
    by unfold wr2Checked; rw [if_pos ⟨h1, h2⟩], shaped_wr2 h.1 _ _ _, ?_⟩
  intro a b c d ha hb hc hd hB
  rw [rd2_wr2 A _ _ _ _ _ h1 h2]
  by_cases he : a * columns + b = i * columns + j ∧ c * columns + d = i2 * columns + j2
  · obtain ⟨e1, e2⟩ := he
    obtain ⟨e3, e4⟩ := cell_index_inj hb hj e1
    obtain ⟨e5, e6⟩ := cell_index_inj hd hj2 e2
    subst e3; subst e4; subst e5; subst e6
    simp [influence]
  · rw [if_neg he]
    refine h.2 a b c d ha hb hc hd ?_
    have hne : ¬ (a = i ∧ b = j ∧ c = i2 ∧ d = j2) := by
      rintro ⟨e3, e4, e5, e6⟩
      subst e3; subst e4; subst e5; subst e6
      exact he ⟨rfl, rfl⟩
    unfold Before at hB ⊢
    omega

/-- `generateInfluenceMatrix` succeeds when the product of the dimensions fits in a
`uint32_t`; the matrix is square of that side and holds `influence` at every entry. -/
theorem generateInfluenceMatrix_total (rows columns : Nat) (hN : rows * columns < wordSize) :
    ∃ A, generateInfluenceMatrix rows columns = some A ∧
      Shaped (rows * columns) (rows * columns) A ∧
      ∀ a b c d, a < rows → b < columns → c < rows → d < columns →
        rd2 A (a * columns + b) (c * columns + d) = influence a b c d := by
  have hn : (columns * rows) % wordSize = rows * columns := by
    rw [Nat.mul_comm, Nat.mod_eq_of_lt hN]
  obtain ⟨A, hA, hI⟩ := forLoopM_inv (fun i A => GenInv rows columns i 0 0 0 A) 0 rows
    (fun i A =>
      forLoopM 0 columns (fun j A =>
        forLoopM 0 rows (fun i2 A =>
          forLoopM 0 columns (fun j2 A =>
            wr2Checked A ((i * columns + j) % wordSize) ((i2 * columns + j2) % wordSize)
              (if i = i2 ∨ j = j2 then 1 else 0)) A) A) A)
    (List.replicate ((columns * rows) % wordSize) (List.replicate ((columns * rows) % wordSize) 0))
    (Nat.zero_le _)
    ⟨by rw [hn]; exact shaped_replicate _ _ _, fun a b c d _ _ _ _ hB => by
      unfold Before at hB; omega⟩
    (fun i A _ hi hI => by
      obtain ⟨u, hu, hJ⟩ := forLoopM_inv (fun j A => GenInv rows columns i j 0 0 A) 0 columns
        (fun j A =>
          forLoopM 0 rows (fun i2 A =>
            forLoopM 0 columns (fun j2 A =>
              wr2Checked A ((i * columns + j) % wordSize) ((i2 * columns + j2) % wordSize)
                (if i = i2 ∨ j = j2 then 1 else 0)) A) A)
        A (Nat.zero_le _) hI
        (fun j A _ hj hJ => by
          obtain ⟨u, hu, hK⟩ := forLoopM_inv (fun i2 A => GenInv rows columns i j i2 0 A) 0 rows
            (fun i2 A =>
              forLoopM 0 columns (fun j2 A =>
                wr2Checked A ((i * columns + j) % wordSize) ((i2 * columns + j2) % wordSize)
                  (if i = i2 ∨ j = j2 then 1 else 0)) A)
            A (Nat.zero_le _) hJ
            (fun i2 A _ hi2 hK => by
              obtain ⟨u, hu, hL⟩ := forLoopM_inv
                (fun j2 A => GenInv rows columns i j i2 j2 A) 0 columns
                (fun j2 A =>
                  wr2Checked A ((i * columns + j) % wordSize) ((i2 * columns + j2) % wordSize)
                    (if i = i2 ∨ j = j2 then 1 else 0))
                A (Nat.zero_le _) hK
                (fun j2 A _ hj2 hL => influence_write hN hi hj hi2 hj2 hL)
              exact ⟨u, hu, GenInv_mono hL (fun a b c d _ _ _ _ hB => by
                unfold Before at hB ⊢; omega)⟩)
          exact ⟨u, hu, GenInv_mono hK (fun a b c d _ _ _ _ hB => by
            unfold Before at hB ⊢; omega)⟩)
      exact ⟨u, hu, GenInv_mono hJ (fun a b c d _ _ _ _ hB => by
        unfold Before at hB ⊢; omega)⟩)
  exact ⟨A, hA, hI.1, fun a b c d ha hb hc hd =>
    hI.2 a b c d ha hb hc hd (by unfold Before; omega)⟩

/-- Preservation rule for `forLoopM`: a property every pass keeps holds at the end. -/
theorem forLoopM_pres {σ : Type} (P : σ → Prop) (lo hi : Nat) (body : Nat → σ → Option σ)
    (s : σ) (h0 : P s) (hpres : ∀ k t u, P t → body k t = some u → P u)
    (r : σ) (hr : forLoopM lo hi body s = some r) : P r := by
  rcases Nat.le_total lo hi with h | h
  · exact forLoopM_post (fun _ t => P t) lo hi body s h h0
      (fun k t u _ _ ht hu => hpres k t u ht hu) r hr
  · rw [forLoopM_empty _ _ _ _ h] at hr
    cases hr
    exact h0

theorem wr2Checked_shaped {r c i j v : Nat} {A u : List (List Nat)} (h : Shaped r c A)
    (hu : wr2Checked A i j v = some u) : Shaped r c u := by
  unfold wr2Checked at hu
  split at hu
  · cases hu; exact shaped_wr2 h _ _ _
  · cases hu

/-- `generateInfluenceMatrix` fails when the product of the dimensions does not fit in
a `uint32_t`: some write lands outside the matrix. -/
theorem generateInfluenceMatrix_overflow (rows columns : Nat)
    (hN : wordSize ≤ rows * columns) : generateInfluenceMatrix rows columns = none := by
  have hlt : (columns * rows) % wordSize < wordSize := Nat.mod_lt _ (by decide)
  obtain ⟨h1, h2, h3⟩ := cell_index_decode (R := rows) (C := columns)
    (k := (columns * rows) % wordSize) (by omega)
  have hw : ∀ (i j i2 j2 : Nat) (t u : List (List Nat)),
      Shaped ((columns * rows) % wordSize) ((columns * rows) % wordSize) t →
      wr2Checked t ((i * columns + j) % wordSize) ((i2 * columns + j2) % wordSize)
        (if i = i2 ∨ j = j2 then 1 else 0) = some u →
      Shaped ((columns * rows) % wordSize) ((columns * rows) % wordSize) u :=
    fun i j i2 j2 t u ht hu => wr2Checked_shaped ht hu
  have h4 : ∀ (i j i2 : Nat) (t u : List (List Nat)),
      Shaped ((columns * rows) % wordSize) ((columns * rows) % wordSize) t →
      forLoopM 0 columns (fun j2 A =>
        wr2Checked A ((i * columns + j) % wordSize) ((i2 * columns + j2) % wordSize)
          (if i = i2 ∨ j = j2 then 1 else 0)) t = some u →
      Shaped ((columns * rows) % wordSize) ((columns * rows) % wordSize) u :=
    fun i j i2 t u ht hu => forLoopM_pres _ 0 columns _ t ht (fun j2 a b => hw i j i2 j2 a b) u hu
  have h5 : ∀ (i j : Nat) (t u : List (List Nat)),
      Shaped ((columns * rows) % wordSize) ((columns * rows) % wordSize) t →
      forLoopM 0 rows (fun i2 A => forLoopM 0 columns (fun j2 A =>
        wr2Checked A ((i * columns + j) % wordSize) ((i2 * columns + j2) % wordSize)
          (if i = i2 ∨ j = j2 then 1 else 0)) A) t = some u →
      Shaped ((columns * rows) % wordSize) ((columns * rows) % wordSize) u :=
    fun i j t u ht hu => forLoopM_pres _ 0 rows _ t ht (fun i2 a b => h4 i j i2 a b) u hu
  have h6 : ∀ (i : Nat) (t u : List (List Nat)),
      Shaped ((columns * rows) % wordSize) ((columns * rows) % wordSize) t →
      forLoopM 0 columns (fun j A => forLoopM 0 rows (fun i2 A => forLoopM 0 columns (fun j2 A =>
        wr2Checked A ((i * columns + j) % wordSize) ((i2 * columns + j2) % wordSize)
          (if i = i2 ∨ j = j2 then 1 else 0)) A) A) t = some u →
      Shaped ((columns * rows) % wordSize) ((columns * rows) % wordSize) u :=
    fun i t u ht hu => forLoopM_pres _ 0 columns _ t ht (fun j a b => h5 i j a b) u hu
  refine forLoopM_fail
    (fun A => Shaped ((columns * rows) % wordSize) ((columns * rows) % wordSize) A) 0 rows
    (((columns * rows) % wordSize) / columns) _ _ (Nat.zero_le _) h1
    (shaped_replicate _ _ _) (fun i a b => h6 i a b) ?_
  intro t ht
  refine forLoopM_fail
    (fun A => Shaped ((columns * rows) % wordSize) ((columns * rows) % wordSize) A) 0 columns
    (((columns * rows) % wordSize) % columns) _ _ (Nat.zero_le _) h2 ht
    (fun j a b => h5 _ j a b) ?_
  intro t ht
  refine forLoopM_fail
    (fun A => Shaped ((columns * rows) % wordSize) ((columns * rows) % wordSize) A) 0 rows
    0 _ _ (Nat.zero_le _) (Nat.lt_of_le_of_lt (Nat.zero_le _) h1) ht
    (fun i2 a b => h4 _ _ i2 a b) ?_
  intro t ht
  refine forLoopM_fail
    (fun A => Shaped ((columns * rows) % wordSize) ((columns * rows) % wordSize) A) 0 columns
    0 _ _ (Nat.zero_le _) (Nat.lt_of_le_of_lt (Nat.zero_le _) h2) ht
    (fun j2 a b => hw _ _ _ j2 a b) ?_
  intro t ht
  rw [h3, Nat.mod_eq_of_lt hlt]
  unfold wr2Checked
  rw [if_neg]
  rw [ht.1]
  omega

/-- The entry of the influence matrix in terms of the two flat indices. -/
theorem influence_decode {rows columns t c : Nat} {A : List (List Nat)}
    (hA : ∀ a b c d, a < rows → b < columns → c < rows → d < columns →
        rd2 A (a * columns + b) (c * columns + d) = influence a b c d)
    (ht : t < rows * columns) (hc : c < rows * columns) :
    rd2 A t c = if t / columns = c / columns ∨ t % columns = c % columns then 1 else 0 := by
  obtain ⟨h1, h2, h3⟩ := cell_index_decode ht
  obtain ⟨h4, h5, h6⟩ := cell_index_decode hc
  have := hA _ _ _ _ h1 h2 h4 h5
  rw [h3, h6] at this
  exact this

/-! ## Row operations of the elimination -/

theorem rd2_swapRows {n c : Nat} {A : List (List Nat)} (h : Shaped n c A) (r p : Nat)
    (hr : r < n) (hp : p < n) (k l : Nat) :
    rd2 (swapRows A r p) k l =
      rd2 A (if k = p then r else if k = r then p else k) l := by
  unfold swapRows rd2
  rw [getD_set_row _ p k _ (by rw [List.length_set, h.1]; exact hp),
    getD_set_row _ r k _ (by rw [h.1]; exact hr)]
  by_cases h1 : k = p
  · simp [h1]
  · by_cases h2 : k = r
    · subst h2
      simp [h1]
    · simp [h1, h2]

theorem shaped_swapRows {n c : Nat} {A : List (List Nat)} (h : Shaped n c A) (r p : Nat)
    (hr : r < n) (hp : p < n) : Shaped n c (swapRows A r p) := by
  refine ⟨by simp [swapRows, h.1], fun k hk => ?_⟩
  unfold swapRows
  rw [getD_set_row _ p k _ (by rw [List.length_set, h.1]; exact hp),
    getD_set_row _ r k _ (by rw [h.1]; exact hr)]
  by_cases h1 : k = p
  · rw [if_pos h1]; exact h.2 r hr
  · rw [if_neg h1]
    by_cases h2 : k = r
    · rw [if_pos h2]; exact h.2 p hp
    · rw [if_neg h2]; exact h.2 k hk

/-- The inner loop of the elimination adds the pivot row to row `i` from column `col` on. -/
theorem xorRow_spec {n : Nat} {A : List (List Nat)} (h : Shaped n (n + 1) A)
    (col row i : Nat) (hcol : col ≤ n) (hi : i < n) (hne : i ≠ row) :
    Shaped n (n + 1) (xorRow n col row i A) ∧
    ∀ k l, rd2 (xorRow n col row i A) k l =
      if k = i ∧ col ≤ l ∧ l ≤ n then rd2 A i l ^^^ rd2 A row l else rd2 A k l := by
  have key := forLoop_inv
    (fun m (B : List (List Nat)) => Shaped n (n + 1) B ∧
      ∀ k l, rd2 B k l = if k = i ∧ col ≤ l ∧ l < m then rd2 A i l ^^^ rd2 A row l else rd2 A k l)
    col (n + 1) (fun j B => wr2 B i j (rd2 B i j ^^^ rd2 B row j)) A (by omega)
    ⟨h, fun k l => by
      have : ¬ (k = i ∧ col ≤ l ∧ l < col) := by omega
      rw [if_neg this]⟩
    (fun m B hm1 hm2 hI => by
      refine ⟨shaped_wr2 hI.1 _ _ _, fun k l => ?_⟩
      rw [rd2_wr2 B i m k l _ (by rw [hI.1.1]; exact hi) (by rw [hI.1.2 i hi]; exact hm2)]
      by_cases hk : k = i ∧ l = m
      · obtain ⟨h1, h2⟩ := hk
        subst h1; subst h2
        have e1 : ¬ (k = k ∧ col ≤ l ∧ l < l) := by omega
        have e2 : ¬ (row = k ∧ col ≤ l ∧ l < l) := by omega
        have e3 : k = k ∧ col ≤ l ∧ l < l + 1 := by omega
        rw [if_pos ⟨rfl, rfl⟩, hI.2 k l, hI.2 row l, if_neg e1, if_neg e2, if_pos e3]
      · rw [if_neg hk, hI.2 k l]
        by_cases h3 : k = i ∧ col ≤ l ∧ l < m
        · have e3 : k = i ∧ col ≤ l ∧ l < m + 1 := by omega
          rw [if_pos h3, if_pos e3]
        · have e3 : ¬ (k = i ∧ col ≤ l ∧ l < m + 1) := by omega
          rw [if_neg h3, if_neg e3])
  refine ⟨key.1, fun k l => ?_⟩
  have := key.2 k l
  unfold xorRow
  rw [this]
  by_cases h3 : k = i ∧ col ≤ l ∧ l ≤ n
  · rw [if_pos h3, if_pos (by omega)]
  · rw [if_neg h3, if_neg (by omega)]

/-- The elimination loop adds the pivot row, from column `col` on, to every other row
that has a 1 in column `col`. -/
theorem eliminate_spec {n : Nat} {A : List (List Nat)} (h : Shaped n (n + 1) A)
    (col row : Nat) (hcol : col ≤ n) :
    Shaped n (n + 1) (eliminate n col row A) ∧
    ∀ k l, rd2 (eliminate n col row A) k l =
      if k < n ∧ k ≠ row ∧ rd2 A k col = 1 ∧ col ≤ l ∧ l ≤ n
      then rd2 A k l ^^^ rd2 A row l else rd2 A k l := by
  have key := forLoop_inv
    (fun m (B : List (List Nat)) => Shaped n (n + 1) B ∧
      ∀ k l, rd2 B k l = if k < m ∧ k ≠ row ∧ rd2 A k col = 1 ∧ col ≤ l ∧ l ≤ n
        then rd2 A k l ^^^ rd2 A row l else rd2 A k l)
    0 n (fun i B => if i ≠ row ∧ rd2 B i col = 1 then xorRow n col row i B else B) A
    (Nat.zero_le _)
    ⟨h, fun k l => by
      have : ¬ (k < 0 ∧ k ≠ row ∧ rd2 A k col = 1 ∧ col ≤ l ∧ l ≤ n) := by omega
      rw [if_neg this]⟩
    (fun m B _ hm hI => by
      have hBm : ∀ l, rd2 B m l = rd2 A m l := fun l => by
        rw [hI.2 m l, if_neg (by omega)]
      have hBrow : ∀ l, rd2 B row l = rd2 A row l := fun l => by
        rw [hI.2 row l, if_neg (by omega)]
      dsimp only
      by_cases hc : m ≠ row ∧ rd2 B m col = 1
      · rw [if_pos hc]
        obtain ⟨hx1, hx2⟩ := xorRow_spec hI.1 col row m hcol hm hc.1
        refine ⟨hx1, fun k l => ?_⟩
        rw [hx2 k l]
        have hc2 : rd2 A m col = 1 := by rw [← hBm col]; exact hc.2
        by_cases hk : k = m ∧ col ≤ l ∧ l ≤ n
        · obtain ⟨h1, h2⟩ := hk
          subst h1
          rw [if_pos ⟨rfl, h2⟩, hBm l, hBrow l, if_pos ⟨by omega, hc.1, hc2, h2⟩]
        · rw [if_neg hk, hI.2 k l]
          by_cases h3 : k < m ∧ k ≠ row ∧ rd2 A k col = 1 ∧ col ≤ l ∧ l ≤ n
          · rw [if_pos h3, if_pos ⟨by omega, h3.2⟩]
          · rw [if_neg h3, if_neg]
            rintro ⟨h4, h5, h6, h7⟩
            rcases Nat.lt_or_ge k m with h8 | h8
            · exact h3 ⟨h8, h5, h6, h7⟩
            · exact hk ⟨by omega, h7⟩
      · rw [if_neg hc]
        refine ⟨hI.1, fun k l => ?_⟩
        rw [hI.2 k l]
        by_cases h3 : k < m ∧ k ≠ row ∧ rd2 A k col = 1 ∧ col ≤ l ∧ l ≤ n
        · rw [if_pos h3, if_pos ⟨by omega, h3.2⟩]
        · rw [if_neg h3, if_neg]
          rintro ⟨h4, h5, h6, h7⟩
          rcases Nat.lt_or_ge k m with h8 | h8
          · exact h3 ⟨h8, h5, h6, h7⟩
          · have : k = m := by omega
            subst this
            exact hc ⟨h5, by rw [hBm col]; exact h6⟩)
  refine ⟨key.1, fun k l => ?_⟩
  unfold eliminate
  exact key.2 k l

/-- The pivot scan stops at the first row from `pivot` on with a nonzero entry in
column `col`, or at `n`. -/
theorem findPivot_spec (A : List (List Nat)) (n col : Nat) :
    ∀ fuel pivot, pivot ≤ n → n ≤ pivot + fuel →
      pivot ≤ findPivot A n col fuel pivot ∧ findPivot A n col fuel pivot ≤ n ∧
      (findPivot A n col fuel pivot < n → rd2 A (findPivot A n col fuel pivot) col ≠ 0) ∧
      ∀ q, pivot ≤ q → q < findPivot A n col fuel pivot → rd2 A q col = 0 := by
  intro fuel
  induction fuel with
  | zero =>
    intro pivot h1 h2
    have : pivot = n := by omega
    subst this
    refine ⟨le_refl _, le_refl _, fun h => absurd h (lt_irrefl _), fun q hq1 hq2 => ?_⟩
    simp only [findPivot] at hq2
    omega
  | succ f ih =>
    intro pivot h1 h2
    unfold findPivot
    by_cases hc : pivot < n ∧ rd2 A pivot col = 0
    · rw [if_pos hc]
      obtain ⟨i1, i2, i3, i4⟩ := ih (pivot + 1) (by omega) (by omega)
      refine ⟨by omega, i2, i3, fun q hq1 hq2 => ?_⟩
      rcases Nat.eq_or_lt_of_le hq1 with h | h
      · subst h; exact hc.2
      · exact i4 q (by omega) hq2
    · rw [if_neg hc]
      refine ⟨le_refl _, h1, fun h => fun h0 => hc ⟨h, h0⟩, fun q hq1 hq2 => by omega⟩

/-! ## The linear system over GF(2) -/

theorem cast_xor (a b : Nat) (ha : a < 2) (hb : b < 2) :
    ((a ^^^ b : Nat) : ZMod 2) = (a : ZMod 2) + (b : ZMod 2) := by
  interval_cases a <;> interval_cases b <;> decide

theorem cast_and (a b : Nat) (ha : a < 2) (hb : b < 2) :
    ((a &&& b : Nat) : ZMod 2) = (a : ZMod 2) * (b : ZMod 2) := by
  interval_cases a <;> interval_cases b <;> decide

theorem xor_lt_two (a b : Nat) (ha : a < 2) (hb : b < 2) : a ^^^ b < 2 := by
  interval_cases a <;> interval_cases b <;> decide

theorem and_lt_two (a b : Nat) (ha : a < 2) (hb : b < 2) : a &&& b < 2 := by
  interval_cases a <;> interval_cases b <;> decide

theorem cast_inj_bit (a b : Nat) (ha : a < 2) (hb : b < 2) :
    ((a : ZMod 2) = (b : ZMod 2)) ↔ a = b := by
  interval_cases a <;> interval_cases b <;> decide

theorem rowSat_congr {M N : List (List Nat)} {n i k : Nat} {x : Nat → ZMod 2}
    (h : ∀ l, l ≤ n → rd2 N k l = rd2 M i l) : RowSat N n k x ↔ RowSat M n i x := by
  unfold RowSat ent
  rw [h n (le_refl _)]
  have : Finset.sum (Finset.range n) (fun j => ((rd2 N k j : Nat) : ZMod 2) * x j) =
      Finset.sum (Finset.range n) (fun j => ((rd2 M i j : Nat) : ZMod 2) * x j) :=
    Finset.sum_congr rfl (fun j hj => by rw [h j (le_of_lt (Finset.mem_range.mp hj))])
  rw [this]

/-- Adding a multiple of a row that holds to another row does not change whether the
other row holds. -/
theorem rowSat_add {M N : List (List Nat)} {n k row : Nat} {x : Nat → ZMod 2} (c : ZMod 2)
    (h : ∀ l, l ≤ n → ent N k l = ent M k l + c * ent M row l)
    (hrow : RowSat M n row x) : RowSat N n k x ↔ RowSat M n k x := by
  unfold RowSat at hrow ⊢
  have hs : Finset.sum (Finset.range n) (fun j => ent N k j * x j) =
      Finset.sum (Finset.range n) (fun j => ent M k j * x j) +
        c * Finset.sum (Finset.range n) (fun j => ent M row j * x j) := by
    rw [Finset.mul_sum, ← Finset.sum_add_distrib]
    refine Finset.sum_congr rfl (fun j hj => ?_)
    rw [h j (le_of_lt (Finset.mem_range.mp hj))]
    ring
  rw [hs, h n (le_refl _), hrow]
  constructor
  · intro e; exact add_right_cancel e
  · intro e; rw [e]

theorem sat_swapRows {n : Nat} {M : List (List Nat)} (h : Shaped n (n + 1) M) (r p : Nat)
    (hr : r < n) (hp : p < n) (x : Nat → ZMod 2) : Sat (swapRows M r p) n x ↔ Sat M n x := by
  have hrd := rd2_swapRows h r p hr hp
  constructor
  · intro hs i hi
    have h1 : (if i = p then r else if i = r then p else i) < n := by
      split
      · exact hr
      · split
        · exact hp
        · exact hi
    have := hs _ h1
    rw [rowSat_congr (M := M) (fun l _ => hrd _ l)] at this
    have e : (if (if i = p then r else if i = r then p else i) = p then r
        else if (if i = p then r else if i = r then p else i) = r then p
        else (if i = p then r else if i = r then p else i)) = i := by
      split_ifs <;> omega
    rw [e] at this
    exact this
  · intro hs i hi
    rw [rowSat_congr (M := M) (i := if i = p then r else if i = r then p else i)
      (fun l _ => hrd i l)]
    refine hs _ ?_
    split
    · exact hr
    · split
      · exact hp
      · exact hi

/-! ## The column loop -/

/-- What the elimination loop achieves when the pivot row has a 1 in column `col` and
zeros before it. -/
theorem eliminate_facts {n : Nat} {M : List (List Nat)} (h : Shaped n (n + 1) M)
    (hb : Bits n M) (col row : Nat) (hcol : col < n) (hrow : row < n)
    (hone : rd2 M row col = 1) (hzero : ∀ l, l < col → rd2 M row l = 0) :
    Shaped n (n + 1) (eliminate n col row M) ∧ Bits n (eliminate n col row M) ∧
    (∀ k l, l < col → rd2 (eliminate n col row M) k l = rd2 M k l) ∧
    (∀ l, rd2 (eliminate n col row M) row l = rd2 M row l) ∧
    (∀ k, k < n → k ≠ row → rd2 (eliminate n col row M) k col = 0) ∧
    (∀ x, Sat (eliminate n col row M) n x ↔ Sat M n x) := by
  obtain ⟨hs, hrd⟩ := eliminate_spec h col row (le_of_lt hcol)
  have hlt : ∀ k l, l < col → rd2 (eliminate n col row M) k l = rd2 M k l := fun k l hl => by
    rw [hrd, if_neg (by omega)]
  have hr : ∀ l, rd2 (eliminate n col row M) row l = rd2 M row l := fun l => by
    rw [hrd, if_neg (by omega)]
  have hbits : Bits n (eliminate n col row M) := fun k l hk hl => by
    rw [hrd]
    split
    · exact xor_lt_two _ _ (hb k l hk hl) (hb row l hrow hl)
    · exact hb k l hk hl
  have hc : ∀ k, k < n → k ≠ row → rd2 (eliminate n col row M) k col = 0 := fun k hk hne => by
    rw [hrd]
    by_cases h1 : rd2 M k col = 1
    · rw [if_pos ⟨hk, hne, h1, le_refl _, le_of_lt hcol⟩, h1, hone]
      rfl
    · rw [if_neg (fun hh => h1 hh.2.2.1)]
      have := hb k col hk (le_of_lt hcol)
      omega
  have hcast : ∀ k l, k < n → l ≤ n → ent (eliminate n col row M) k l =
      ent M k l + (if k ≠ row ∧ rd2 M k col = 1 then 1 else 0) * ent M row l := by
    intro k l hk hl
    unfold ent
    rw [hrd]
    by_cases h1 : k ≠ row ∧ rd2 M k col = 1
    · rw [if_pos h1]
      rcases Nat.lt_or_ge l col with h2 | h2
      · rw [if_neg (by omega), hzero l h2]
        simp
      · rw [if_pos ⟨hk, h1.1, h1.2, h2, hl⟩, cast_xor _ _ (hb k l hk hl) (hb row l hrow hl)]
        simp
    · rw [if_neg h1, if_neg (fun hh => h1 ⟨hh.2.1, hh.2.2.1⟩)]
      simp
  have hrowsat : ∀ x, RowSat (eliminate n col row M) n row x ↔ RowSat M n row x :=
    fun x => rowSat_congr (fun l _ => hr l)
  refine ⟨hs, hbits, hlt, hr, hc, fun x => ⟨fun hS k hk => ?_, fun hS k hk => ?_⟩⟩
  · exact (rowSat_add _ (fun l hl => hcast k l hk hl) ((hrowsat x).mp (hS row hrow))).mp (hS k hk)
  · exact (rowSat_add _ (fun l hl => hcast k l hk hl) (hS row hrow)).mpr (hS k hk)

theorem elimStep_inv {n : Nat} {M0 : List (List Nat)} {col : Nat}
    {st : List (List Nat) × Nat} (h : EInv n M0 col st) (hcol : col < n) :
    EInv n M0 (col + 1) (elimStep n col st) := by
  obtain ⟨M, row⟩ := st
  obtain ⟨hsh, hbits, hrl, hsat, hbelow, hpiv⟩ := h
  simp only at hsh hbits hrl hsat hbelow hpiv
  have keep : (∀ i, row ≤ i → i < n → rd2 M i col = 0) → EInv n M0 (col + 1) (M, row) :=
    fun hz => ⟨hsh, hbits, by simp only; omega, hsat, fun i j h1 h2 h3 => by
        rcases Nat.eq_or_lt_of_le (Nat.le_of_lt_succ h3) with e | e
        · subst e; exact hz i h1 h2
        · exact hbelow i j h1 h2 e,
      fun r hr => by
        obtain ⟨p, hp, hq⟩ := hpiv r hr
        exact ⟨p, by omega, hq⟩⟩
  unfold elimStep
  by_cases hrow : row < n
  · rw [if_pos hrow]
    obtain ⟨s1, s2, s3, s4⟩ := findPivot_spec M n col n row (le_of_lt hrow) (by omega)
    by_cases hpv : findPivot M n col n row = n
    · simp only [hpv, if_true]
      exact keep (fun i h1 h2 => s4 i h1 (by rw [hpv]; exact h2))
    · simp only [hpv, if_false]
      generalize findPivot M n col n row = pv at s1 s2 s3 s4 hpv
      have hpvn : pv < n := by omega
      have hone : rd2 M pv col = 1 := by
        have := hbits pv col hpvn (le_of_lt hcol)
        have := s3 hpvn
        omega
      have hM1 := shaped_swapRows hsh row pv hrow hpvn
      have hrd1 := rd2_swapRows hsh row pv hrow hpvn
      have f1 : ∀ l, rd2 (swapRows M row pv) row l = rd2 M pv l := fun l => by
        rw [hrd1]
        by_cases e : row = pv
        · simp [e]
        · simp [e]
      have hσ : ∀ k, k < n → (if k = pv then row else if k = row then pv else k) < n :=
        fun k hk => by split_ifs <;> omega
      have f2 : Bits n (swapRows M row pv) := fun k l hk hl => by
        rw [hrd1]; exact hbits _ l (hσ k hk) hl
      have f5 : ∀ i j, row ≤ i → i < n → j < col → rd2 (swapRows M row pv) i j = 0 :=
        fun i j h1 h2 h3 => by
          rw [hrd1]
          exact hbelow _ j (by split_ifs <;> omega) (hσ i h2) h3
      obtain ⟨g1, g2, g3, g4, g5, g6⟩ := eliminate_facts hM1 f2 col row hcol hrow
        (by rw [f1]; exact hone) (fun l hl => f5 row l (le_refl _) hrow hl)
      refine ⟨g1, g2, by simp only; omega, fun x => ?_, fun i j h1 h2 h3 => ?_, fun r hr => ?_⟩
      · rw [g6 x, sat_swapRows hsh row pv hrow hpvn x]
        exact hsat x
      · simp only at h1 ⊢
        rcases Nat.eq_or_lt_of_le (Nat.le_of_lt_succ h3) with e | e
        · subst e; exact g5 i h2 (by omega)
        · rw [g3 i j e]; exact f5 i j (by omega) h2 e
      · simp only at hr ⊢
        rcases Nat.eq_or_lt_of_le (Nat.le_of_lt_succ hr) with e | e
        · subst e
          refine ⟨col, by omega, ?_, fun j hj => ?_, fun i hi hne => g5 i hi hne⟩
          · rw [g4, f1]; exact hone
          · rw [g4]; exact f5 r j (le_refl _) hrow hj
        · obtain ⟨p, hp, q1, q2, q3⟩ := hpiv r e
          have hr1 : ∀ l, rd2 (swapRows M row pv) r l = rd2 M r l := fun l => by
            rw [hrd1, if_neg (by omega), if_neg (by omega)]
          refine ⟨p, by omega, ?_, fun j hj => ?_, fun i hi hne => ?_⟩
          · rw [g3 r p hp, hr1]; exact q1
          · rw [g3 r j (by omega), hr1]; exact q2 j hj
          · rw [g3 i p hp, hrd1]
            exact q3 _ (hσ i hi) (by split_ifs <;> omega)
  · rw [if_neg hrow]
    exact keep (fun i h1 h2 => by omega)

/-- The column loop ends in a state that satisfies the invariant for all `n` columns. -/
theorem elimLoop_inv {n : Nat} {M0 : List (List Nat)} (hs : Shaped n (n + 1) M0)
    (hb : Bits n M0) : EInv n M0 n (elimLoop n M0) := by
  unfold elimLoop
  refine forLoop_inv (fun col st => EInv n M0 col st) 0 n (elimStep n) (M0, 0) (Nat.zero_le _)
    ⟨hs, hb, le_refl _, fun x => Iff.rfl, fun i j _ _ h => by omega, fun r hr => by
      simp only at hr; omega⟩
    (fun col st _ hcol hI => elimStep_inv hI hcol)

/-! ## The consistency test and the back-substitution -/

theorem inconsistent_iff (n row : Nat) (M : List (List Nat)) (h : row ≤ n) :
    inconsistent n row M = true ↔ ∃ i, row ≤ i ∧ i < n ∧ rd2 M i n = 1 := by
  unfold inconsistent
  rw [List.any_eq_true]
  constructor
  · rintro ⟨i, hi, hd⟩
    rw [List.mem_range'_1] at hi
    exact ⟨i, hi.1, by omega, of_decide_eq_true hd⟩
  · rintro ⟨i, h1, h2, h3⟩
    exact ⟨i, by rw [List.mem_range'_1]; omega, decide_eq_true h3⟩

theorem add_self_zmod2 (a : ZMod 2) : a + a = 0 := by
  revert a; decide

/-- The accumulation `sum ^= A[i][j] & x[j]` over the columns after the pivot column. -/
theorem sumLoop_spec (n : Nat) (M : List (List Nat)) (hb : Bits n M) (k p : Nat) (hk : k < n)
    (hp : p < n) (x : List Nat) (hx : ∀ j, rd x j < 2) :
    forLoop (p + 1) n (fun j sum => sum ^^^ (rd2 M k j &&& rd x j)) (rd2 M k n) < 2 ∧
    ((forLoop (p + 1) n (fun j sum => sum ^^^ (rd2 M k j &&& rd x j)) (rd2 M k n) : Nat) :
        ZMod 2) =
      ent M k n + Finset.sum (Finset.Ico (p + 1) n) (fun j => ent M k j * vec x j) := by
  refine forLoop_inv
    (fun m (acc : Nat) => acc < 2 ∧ ((acc : Nat) : ZMod 2) =
      ent M k n + Finset.sum (Finset.Ico (p + 1) m) (fun j => ent M k j * vec x j))
    (p + 1) n _ _ (by omega) ⟨hb k n hk (le_refl _), by simp [ent]⟩ ?_
  intro m acc hm1 hm2 hI
  have h1 : rd2 M k m &&& rd x m < 2 := and_lt_two _ _ (hb k m hk (le_of_lt hm2)) (hx m)
  refine ⟨xor_lt_two _ _ hI.1 h1, ?_⟩
  rw [cast_xor _ _ hI.1 h1, cast_and _ _ (hb k m hk (le_of_lt hm2)) (hx m), hI.2,
    Finset.sum_Ico_succ_top hm1, add_assoc]
  rfl

theorem rd_set (x : List Nat) (p j v : Nat) (hp : p < x.length) :
    rd (x.set p v) j = if j = p then v else rd x j := getD_set_val x p j v 0 hp

/-- One pass of the back-substitution makes row `k` hold and keeps the rows after it. -/
theorem backStep_inv {n : Nat} {M0 M : List (List Nat)} {row : Nat}
    (hE : EInv n M0 n (M, row)) (hcons : ∀ i, row ≤ i → i < n → rd2 M i n = 0)
    (k : Nat) (hk : k < n) (x : List Nat) (hlen : x.length = n) (hx : ∀ j, rd x j < 2)
    (hrows : ∀ i, k + 1 ≤ i → i < n → RowSat M n i (vec x)) :
    (backStep n M k x).length = n ∧ (∀ j, rd (backStep n M k x) j < 2) ∧
    ∀ i, k ≤ i → i < n → RowSat M n i (vec (backStep n M k x)) := by
  obtain ⟨hsh, hbits, hrl, hsat, hbelow, hpiv⟩ := hE
  simp only at hsh hbits hrl hsat hbelow hpiv
  unfold backStep
  cases hp : pivotColOf n k M with
  | none =>
    refine ⟨hlen, hx, fun i h1 h2 => ?_⟩
    rcases Nat.eq_or_lt_of_le h1 with e | e
    · subst e
      unfold pivotColOf at hp
      rw [List.find?_range_eq_none] at hp
      have hz : ∀ j, j < n → rd2 M k j = 0 := fun j hj => by
        have h3 := hp j hj
        have h4 := hbits k j hk (le_of_lt hj)
        simp only [Bool.not_eq_true', decide_eq_false_iff_not] at h3
        omega
      have hge : row ≤ k := by
        rcases Nat.lt_or_ge k row with h3 | h3
        · obtain ⟨q, hq, hq1, _⟩ := hpiv k h3
          rw [hz q hq] at hq1
          cases hq1
        · exact h3
      unfold RowSat ent
      rw [hcons k hge hk]
      rw [Finset.sum_eq_zero (fun j hj => by rw [hz j (Finset.mem_range.mp hj)]; simp)]
      simp
    · exact hrows i (by omega) h2
  | some p =>
    simp only
    unfold pivotColOf at hp
    rw [List.find?_range_eq_some] at hp
    obtain ⟨hp1, hp2, hp3⟩ := hp
    have hpn : p < n := List.mem_range.mp hp2
    have hone : rd2 M k p = 1 := of_decide_eq_true hp1
    have hbefore : ∀ j, j < p → rd2 M k j = 0 := fun j hj => by
      have h3 := hp3 j hj
      have h4 := hbits k j hk (by omega)
      simp only [Bool.not_eq_true', decide_eq_false_iff_not] at h3
      omega
    have hkr : k < row := by
      rcases Nat.lt_or_ge k row with h3 | h3
      · exact h3
      · rw [hbelow k p h3 hk hpn] at hone
        cases hone
    obtain ⟨q, hq, hq1, hq2, hq3⟩ := hpiv k hkr
    have hpq : q = p := by
      rcases Nat.lt_trichotomy q p with h3 | h3 | h3
      · rw [hbefore q h3] at hq1; cases hq1
      · exact h3
      · rw [hq2 p h3] at hone; cases hone
    subst hpq
    obtain ⟨hs1, hs2⟩ := sumLoop_spec n M hbits k q hk hpn x hx
    generalize forLoop (q + 1) n (fun j sum => sum ^^^ (rd2 M k j &&& rd x j)) (rd2 M k n) = s
      at hs1 hs2
    have hql : q < x.length := by rw [hlen]; exact hpn
    have hvec : ∀ j, vec (x.set q s) j = if j = q then ((s : Nat) : ZMod 2) else vec x j :=
      fun j => by
        unfold vec
        rw [rd_set x q j s hql]
        split <;> rfl
    refine ⟨by rw [List.length_set]; exact hlen, fun j => ?_, fun i h1 h2 => ?_⟩
    · rw [rd_set x q j s hql]
      split
      · exact hs1
      · exact hx j
    · rcases Nat.eq_or_lt_of_le h1 with e | e
      · subst e
        unfold RowSat
        rw [← Finset.sum_range_add_sum_Ico _ (by omega : q + 1 ≤ n), Finset.sum_range_succ,
          Finset.sum_eq_zero (fun j hj => by
            unfold ent; rw [hbefore j (Finset.mem_range.mp hj)]; simp)]
        have h3 : Finset.sum (Finset.Ico (q + 1) n) (fun j => ent M k j * vec (x.set q s) j) =
            Finset.sum (Finset.Ico (q + 1) n) (fun j => ent M k j * vec x j) :=
          Finset.sum_congr rfl (fun j hj => by
            rw [hvec j, if_neg (by have := (Finset.mem_Ico.mp hj).1; omega)])
        rw [h3, hvec q, if_pos rfl, hs2]
        have h4 : ent M k q = 1 := by unfold ent; rw [hone]; simp
        rw [h4, zero_add, one_mul, add_assoc, add_self_zmod2, add_zero]
      · have h3 := hrows i (by omega) h2
        unfold RowSat at h3 ⊢
        rw [← h3]
        refine Finset.sum_congr rfl (fun j _ => ?_)
        rw [hvec j]
        split
        · rename_i e2
          subst e2
          have : ent M i j = 0 := by
            unfold ent; rw [hq3 i h2 (by omega)]; simp
          rw [this, zero_mul, zero_mul]
        · rfl

/-- The back-substitution returns a bit vector of length `n` at which every row holds. -/
theorem backSubst_sat {n : Nat} {M0 M : List (List Nat)} {row : Nat}
    (hE : EInv n M0 n (M, row)) (hcons : ∀ i, row ≤ i → i < n → rd2 M i n = 0) :
    (backSubst n M).length = n ∧ (∀ j, rd (backSubst n M) j < 2) ∧
    Sat M n (vec (backSubst n M)) := by
  have key := forDown_inv
    (fun k (x : List Nat) => x.length = n ∧ (∀ j, rd x j < 2) ∧
      ∀ i, k ≤ i → i < n → RowSat M n i (vec x))
    n (backStep n M) (List.replicate n 0)
    ⟨by simp, fun j => by
        unfold rd
        rw [List.getD_eq_getElem?_getD, List.getElem?_replicate]
        split <;> simp,
      fun i h1 h2 => by omega⟩
    (fun k x hk hI => backStep_inv hE hcons k hk x hI.1 hI.2.1 hI.2.2)
  exact ⟨key.1, key.2.1, fun i hi => key.2.2 i (Nat.zero_le _) hi⟩

/-! ## gaussGF2 on a square bit system -/

/-- The augmented matrix `[A | b]`. -/
theorem appendRhs_spec {n : Nat} {A : List (List Nat)} (hA : Shaped n n A) (b : List Nat) :
    Shaped n (n + 1) (appendRhs A b) ∧
    (∀ i j, i < n → j < n → rd2 (appendRhs A b) i j = rd2 A i j) ∧
    ∀ i, i < n → rd2 (appendRhs A b) i n = rd b i := by
  have key := forLoop_inv
    (fun m (B : List (List Nat)) => B.length = n ∧
      ∀ i, i < n → B.getD i [] = if i < m then A.getD i [] ++ [rd b i] else A.getD i [])
    0 A.length (fun i B => B.set i (B.getD i [] ++ [rd b i])) A (Nat.zero_le _)
    ⟨hA.1, fun i _ => by rw [if_neg (by omega)]⟩
    (fun m B _ hm hI => by
      rw [hA.1] at hm
      refine ⟨by rw [List.length_set]; exact hI.1, fun i hi => ?_⟩
      rw [getD_set_row B m i _ (by rw [hI.1]; exact hm)]
      by_cases e : i = m
      · subst e
        rw [if_pos rfl, hI.2 i hi, if_neg (by omega), if_pos (by omega)]
      · rw [if_neg e, hI.2 i hi]
        by_cases e2 : i < m
        · rw [if_pos e2, if_pos (by omega)]
        · rw [if_neg e2, if_neg (by omega)])
  have hrow : ∀ i, i < n → (appendRhs A b).getD i [] = A.getD i [] ++ [rd b i] := fun i hi => by
    have := key.2 i hi
    rw [if_pos (by rw [hA.1]; exact hi)] at this
    exact this
  refine ⟨⟨key.1, fun i hi => ?_⟩, fun i j hi hj => ?_, fun i hi => ?_⟩
  · rw [hrow i hi, List.length_append, hA.2 i hi]
    rfl
  · unfold rd2
    rw [hrow i hi, List.getD_append _ _ _ _ (by rw [hA.2 i hi]; exact hj)]
  · unfold rd2
    rw [hrow i hi, List.getD_append_right _ _ _ _ (by rw [hA.2 i hi]), hA.2 i hi]
    simp

theorem rd_lt_two_of_bitVector {n : Nat} {x : List Nat} (h : BitVector n x) (j : Nat) :
    rd x j < 2 := by
  rcases Nat.lt_or_ge j n with hj | hj
  · exact h.2 j hj
  · unfold rd
    rw [List.getD_eq_default _ _ (by rw [h.1]; exact hj)]
    decide

/-- The XOR-and-AND product of a bit row with a bit vector is the sum of products
over GF(2). -/
theorem dotGF2_spec (n : Nat) (row x : List Nat) (hrow : ∀ j, j < n → rd row j < 2)
    (hx : ∀ j, rd x j < 2) :
    dotGF2 n row x < 2 ∧ ((dotGF2 n row x : Nat) : ZMod 2) =
      Finset.sum (Finset.range n) (fun j => ((rd row j : Nat) : ZMod 2) * vec x j) := by
  refine forLoop_inv
    (fun m (acc : Nat) => acc < 2 ∧ ((acc : Nat) : ZMod 2) =
      Finset.sum (Finset.range m) (fun j => ((rd row j : Nat) : ZMod 2) * vec x j))
    0 n _ 0 (Nat.zero_le _) ⟨by decide, by simp⟩ ?_
  intro m acc _ hm hI
  have h1 : rd row m &&& rd x m < 2 := and_lt_two _ _ (hrow m hm) (hx m)
  refine ⟨xor_lt_two _ _ hI.1 h1, ?_⟩
  rw [cast_xor _ _ hI.1 h1, cast_and _ _ (hrow m hm) (hx m), hI.2, Finset.sum_range_succ]
  rfl

/-- A bit vector solves `A·x = b` exactly when every row of `[A | b]` holds at it. -/
theorem solves_iff_sat {n : Nat} {A : List (List Nat)} {b x : List Nat} (hA : BitMatrix n A)
    (hb : BitVector n b) (hx : BitVector n x) :
    Solves A x b ↔ Sat (appendRhs A b) n (vec x) := by
  obtain ⟨a1, a2, a3⟩ := appendRhs_spec hA.1 b
  have hlen : A.length = n := hA.1.1
  have hrow : ∀ i, i < n → (RowSat (appendRhs A b) n i (vec x) ↔
      dotGF2 n (A.getD i []) x = rd b i) := fun i hi => by
    obtain ⟨d1, d2⟩ := dotGF2_spec n (A.getD i []) x (fun j hj => hA.2 i hi j hj)
      (rd_lt_two_of_bitVector hx)
    rw [← cast_inj_bit _ _ d1 (hb.2 i hi), d2]
    unfold RowSat ent
    rw [a3 i hi]
    have : Finset.sum (Finset.range n) (fun j => ((rd2 (appendRhs A b) i j : Nat) : ZMod 2) *
        vec x j) = Finset.sum (Finset.range n)
          (fun j => ((rd (A.getD i []) j : Nat) : ZMod 2) * vec x j) :=
      Finset.sum_congr rfl (fun j hj => by
        rw [a2 i j hi (Finset.mem_range.mp hj)]
        rfl)
    rw [this]
  unfold Solves Sat
  rw [hlen]
  constructor
  · intro h i hi
    exact (hrow i hi).mpr (h.2 i hi)
  · intro h
    exact ⟨hx, fun i hi => (hrow i hi).mp (h i hi)⟩

theorem bits_appendRhs {n : Nat} {A : List (List Nat)} {b : List Nat} (hA : BitMatrix n A)
    (hb : BitVector n b) : Bits n (appendRhs A b) := by
  obtain ⟨_, a2, a3⟩ := appendRhs_spec hA.1 b
  intro i j hi hj
  rcases Nat.eq_or_lt_of_le hj with e | e
  · subst e; rw [a3 i hi]; exact hb.2 i hi
  · rw [a2 i j hi e]; exact hA.2 i hi j e

/-- The two outcomes of `gaussGF2` on a square bit system: the empty vector when the
system has no solution, a solution otherwise. -/
theorem gaussGF2_cases {n : Nat} {A : List (List Nat)} {b : List Nat} (hA : BitMatrix n A)
    (hb : BitVector n b) :
    (gaussGF2 A b = [] ∧ 0 < n ∧ ∀ x, ¬ Solves A x b) ∨ Solves A (gaussGF2 A b) b := by
  have hlen : A.length = n := hA.1.1
  obtain ⟨a1, _, _⟩ := appendRhs_spec hA.1 b
  have hE := elimLoop_inv a1 (bits_appendRhs hA hb)
  unfold gaussGF2
  simp only [hlen]
  generalize elimLoop n (appendRhs A b) = st at hE
  obtain ⟨M, row⟩ := st
  simp only
  by_cases hinc : inconsistent n row M = true
  · left
    rw [if_pos hinc]
    rw [inconsistent_iff n row M hE.row_le] at hinc
    obtain ⟨i, h1, h2, h3⟩ := hinc
    refine ⟨rfl, by omega, fun x hx => ?_⟩
    have hxb : BitVector n x := by rw [← hlen]; exact hx.1
    have hs := (hE.sat (vec x)).mpr ((solves_iff_sat hA hb hxb).mp hx) i h2
    unfold RowSat ent at hs
    rw [h3, Finset.sum_eq_zero (fun j hj => by
      rw [hE.below i j h1 h2 (Finset.mem_range.mp hj)]; simp)] at hs
    revert hs
    decide
  · right
    rw [if_neg hinc]
    have hcons : ∀ i, row ≤ i → i < n → rd2 M i n = 0 := fun i h1 h2 => by
      have h3 : ¬ rd2 M i n = 1 := fun e =>
        hinc ((inconsistent_iff n row M hE.row_le).mpr ⟨i, h1, h2, e⟩)
      have h4 : rd2 M i n < 2 := hE.bits i n h2 (le_refl _)
      omega
    obtain ⟨b1, b2, b3⟩ := backSubst_sat hE hcons
    have hxb : BitVector n (backSubst n M) := ⟨b1, fun j _ => b2 j⟩
    exact (solves_iff_sat hA hb hxb).mpr ((hE.sat _).mp b3)

/-! ## Applying the solution to the grid -/

theorem cellBit_not (v : Bool) : cellBit (!v) = cellBit v + 1 := by
  cases v <;> decide

theorem cellBit_eq_cast (v : Bool) : cellBit v = ((bitOf v : Nat) : ZMod 2) := by
  cases v <;> decide

theorem influence_symm (a b c d : Nat) : influence a b c d = influence c d a b := by
  unfold influence
  by_cases h : a = c ∨ b = d
  · rw [if_pos h, if_pos (by omega)]
  · rw [if_neg h, if_neg (by omega)]

/-- The toggle loop of `openBox` adds to every cell, over GF(2), the number of
prescribed toggles that share its row or its column. -/
theorem applyToggles_spec (y x : Nat) (sol : List Nat) (box : SecureBox)
    (hy : box.ySize = y) (hx : box.xSize = x) (hsh : Shaped y x box.box)
    (hN : y * x < wordSize) (hsol : ∀ j, rd sol j < 2) :
    (applyToggles y x sol box).1.ySize = y ∧ (applyToggles y x sol box).1.xSize = x ∧
    Shaped y x (applyToggles y x sol box).1.box ∧
    ∀ r c, r < y → c < x → cellBit (rd2 (applyToggles y x sol box).1.box r c) =
      cellBit (rd2 box.box r c) + Finset.sum (Finset.range (y * x))
        (fun i => vec sol i * ((influence (i / x) (i % x) r c : Nat) : ZMod 2)) := by
  unfold applyToggles
  rw [Nat.mod_eq_of_lt hN]
  refine forLoop_inv
    (fun m (st : SecureBox × List (Nat × Nat)) => st.1.ySize = y ∧ st.1.xSize = x ∧
      Shaped y x st.1.box ∧
      ∀ r c, r < y → c < x → cellBit (rd2 st.1.box r c) =
        cellBit (rd2 box.box r c) + Finset.sum (Finset.range m)
          (fun i => vec sol i * ((influence (i / x) (i % x) r c : Nat) : ZMod 2)))
    0 (y * x) _ (box, []) (Nat.zero_le _) ⟨hy, hx, hsh, fun r c _ _ => by simp⟩ ?_
  intro m st _ hm ⟨h1, h2, h3, h4⟩
  obtain ⟨d1, d2, _⟩ := cell_index_decode hm
  by_cases hs : rd sol m = 1
  · rw [if_pos hs]
    have hsh2 : Shaped st.1.ySize st.1.xSize st.1.box := by rw [h1, h2]; exact h3
    obtain ⟨t1, t2⟩ := toggle_cells st.1 (m / x) (m % x) hsh2 (by rw [h1]; exact d1)
      (by rw [h2]; exact d2)
    refine ⟨h1, h2, by rw [h1, h2] at t1; exact t1, fun r c hr hc => ?_⟩
    rw [t2 r c (by rw [h1]; exact hr) (by rw [h2]; exact hc), Finset.sum_range_succ, ← add_assoc,
      ← h4 r c hr hc]
    have hv : vec sol m = 1 := by unfold vec; rw [hs]; simp
    rw [hv, one_mul]
    unfold influence
    by_cases e : r = m / x ∨ c = m % x
    · rw [if_pos e, if_pos (by omega), cellBit_not]
      simp
    · rw [if_neg e, if_neg (by omega)]
      simp
  · rw [if_neg hs]
    refine ⟨h1, h2, h3, fun r c hr hc => ?_⟩
    have hv : vec sol m = 0 := by
      have := hsol m
      have h0 : rd sol m = 0 := by omega
      unfold vec; rw [h0]; simp
    rw [Finset.sum_range_succ, hv, zero_mul, add_zero]
    exact h4 r c hr hc

/-- `isLocked` reports exactly whether some cell within the dimensions is set. -/
theorem isLocked_iff (s : SecureBox) :
    s.isLocked = true ↔ ∃ r c, r < s.ySize ∧ c < s.xSize ∧ rd2 s.box r c = true := by
  unfold SecureBox.isLocked
  simp only [List.any_eq_true, List.mem_range]
  constructor
  · rintro ⟨c, hc, r, hr, h⟩
    exact ⟨r, c, hr, hc, h⟩
  · rintro ⟨r, c, hr, hc, h⟩
    exact ⟨c, hc, r, hr, h⟩

theorem isLocked_false_iff (s : SecureBox) :
    s.isLocked = false ↔ ∀ r c, r < s.ySize → c < s.xSize → rd2 s.box r c = false := by
  rw [← Bool.not_eq_true, isLocked_iff]
  constructor
  · intro h r c hr hc
    cases e : rd2 s.box r c with
    | false => rfl
    | true => exact absurd ⟨r, c, hr, hc, e⟩ h
  · rintro h ⟨r, c, hr, hc, e⟩
    rw [h r c hr hc] at e
    cases e

/-- Applying a solution of the system built from the grid clears every cell. -/
theorem applyToggles_clears (y x : Nat) (sol : List Nat) (box : SecureBox)
    (A : List (List Nat)) (b : List Nat)
    (hy : box.ySize = y) (hx : box.xSize = x) (hsh : Shaped y x box.box)
    (hA : generateInfluenceMatrix y x = some A) (hb : Matrixb box.getState y x = some b)
    (hsol : Solves A sol b) :
    ∀ r c, r < y → c < x → rd2 (applyToggles y x sol box).1.box r c = false := by
  have hN : y * x < wordSize := by
    rcases Nat.lt_or_ge (y * x) wordSize with h | h
    · exact h
    · rw [Matrixb_overflow _ _ _ h] at hb; cases hb
  obtain ⟨A2, e1, a1, a2⟩ := generateInfluenceMatrix_total y x hN
  obtain ⟨b2, e2, b1, b3⟩ := Matrixb_total box.getState y x hsh hN
  rw [hA] at e1; cases e1
  rw [hb] at e2; cases e2
  have hlen : A.length = y * x := a1.1
  have hsb : ∀ j, rd sol j < 2 := rd_lt_two_of_bitVector hsol.1
  obtain ⟨_, _, _, t4⟩ := applyToggles_spec y x sol box hy hx hsh hN hsb
  intro r c hr hc
  have hk : r * x + c < y * x := cell_index_lt hr hc
  have hrowA : ∀ j, j < y * x → rd (A.getD (r * x + c) []) j = influence (j / x) (j % x) r c :=
    fun j hj => by
      obtain ⟨d1, d2, d3⟩ := cell_index_decode hj
      have := a2 r c (j / x) (j % x) hr hc d1 d2
      rw [d3] at this
      rw [← influence_symm]
      exact this
  obtain ⟨_, q2⟩ := dotGF2_spec (y * x) (A.getD (r * x + c) []) sol
    (fun j hj => by rw [hrowA j hj]; unfold influence; split <;> decide) hsb
  have hdot := hsol.2 (r * x + c) (by rw [hlen]; exact hk)
  rw [hlen, b3 r c hr hc] at hdot
  rw [hdot] at q2
  have hsum : Finset.sum (Finset.range (y * x))
      (fun i => vec sol i * ((influence (i / x) (i % x) r c : Nat) : ZMod 2)) =
      cellBit (rd2 box.box r c) := by
    rw [cellBit_eq_cast]
    show _ = ((bitOf (rd2 box.getState r c) : Nat) : ZMod 2)
    rw [q2]
    refine Finset.sum_congr rfl (fun j hj => ?_)
    rw [hrowA j (Finset.mem_range.mp hj), mul_comm]
  have hfin := t4 r c hr hc
  rw [hsum, add_self_zmod2] at hfin
  cases e : rd2 (applyToggles y x sol box).1.box r c with
  | false => rfl
  | true =>
    rw [e] at hfin
    revert hfin
    decide

/-! ## The solver contract -/

/-- C1: for an `n`×`n` matrix `A` and a vector `b` of length `n`, both with entries in
{0, 1}, such that some bit vector `x0` of length `n` satisfies `A·x0 = b` modulo 2,
`gaussGF2 A b` is a bit vector of length exactly `n` that satisfies `A·x = b` modulo 2:
in every row `i` the XOR over `j` of `A[i][j] AND x[j]` equals `b[i]`. -/
theorem gaussGF2_returns_solution (n : Nat) (A : List (List Nat)) (b : List Nat)
    (hA : BitMatrix n A) (hb : BitVector n b) (hex : ∃ x0, Solves A x0 b) :
    (gaussGF2 A b).length = n ∧ (∀ j, j < n → rd (gaussGF2 A b) j < 2) ∧
    ∀ i, i < n → dotGF2 n (A.getD i []) (gaussGF2 A b) = rd b i := by
  have hlen : A.length = n := hA.1.1
  rcases gaussGF2_cases hA hb with h | h
  · obtain ⟨x0, hx0⟩ := hex
    exact absurd hx0 (h.2.2 x0)
  · obtain ⟨⟨h1, h2⟩, h3⟩ := h
    rw [hlen] at h1 h2 h3
    exact ⟨h1, h2, h3⟩

/-- C1 at a rank-deficient 3×3 system that has the solution `[0, 1, 0]`. -/
theorem gaussGF2_returns_solution_witness :
    (gaussGF2 [[1, 1, 0], [1, 1, 0], [0, 0, 1]] [1, 1, 0]).length = 3 ∧
    (∀ j, j < 3 → rd (gaussGF2 [[1, 1, 0], [1, 1, 0], [0, 0, 1]] [1, 1, 0]) j < 2) ∧
    ∀ i, i < 3 → dotGF2 3 (([[1, 1, 0], [1, 1, 0], [0, 0, 1]] : List (List Nat)).getD i [])
      (gaussGF2 [[1, 1, 0], [1, 1, 0], [0, 0, 1]] [1, 1, 0]) = rd [1, 1, 0] i :=
  gaussGF2_returns_solution 3 [[1, 1, 0], [1, 1, 0], [0, 0, 1]] [1, 1, 0]
    (by decide) (by decide) ⟨[0, 1, 0], by decide⟩

/-- C2: for an `n`×`n` bit matrix `A` and a bit vector `b` of length `n` such that no
bit vector `x` of length `n` satisfies `A·x = b` modulo 2, `gaussGF2 A b` is the empty
vector, and it is not a vector of length `n`. -/
theorem gaussGF2_unsolvable (n : Nat) (A : List (List Nat)) (b : List Nat)
    (hA : BitMatrix n A) (hb : BitVector n b) (hno : ¬ ∃ x, Solves A x b) :
    gaussGF2 A b = [] ∧ (gaussGF2 A b).length ≠ n := by
  rcases gaussGF2_cases hA hb with h | h
  · refine ⟨h.1, ?_⟩
    rw [h.1]
    have := h.2.1
    simp only [List.length_nil]
    omega
  · exact absurd ⟨_, h⟩ hno

/-- C2 at the 4×4 all-ones matrix with `b = [1, 0, 0, 0]`: rows 0 and 1 of the matrix
are equal and the right-hand sides differ, so no vector solves the system. -/
theorem gaussGF2_unsolvable_witness :
    gaussGF2 [[1, 1, 1, 1], [1, 1, 1, 1], [1, 1, 1, 1], [1, 1, 1, 1]] [1, 0, 0, 0] = [] ∧
    (gaussGF2 [[1, 1, 1, 1], [1, 1, 1, 1], [1, 1, 1, 1], [1, 1, 1, 1]] [1, 0, 0, 0]).length
      ≠ 4 :=
  gaussGF2_unsolvable 4 [[1, 1, 1, 1], [1, 1, 1, 1], [1, 1, 1, 1], [1, 1, 1, 1]] [1, 0, 0, 0]
    (by decide) (by decide) (by
      rintro ⟨x, hx⟩
      have h0 : dotGF2 4 [1, 1, 1, 1] x = 1 := hx.2 0 (by decide)
      have h1 : dotGF2 4 [1, 1, 1, 1] x = 0 := hx.2 1 (by decide)
      rw [h0] at h1
      cases h1)

/-! ## The pipeline -/

theorem noOverflow_of_Matrixb {state : List (List Bool)} {rows columns : Nat} {b : List Nat}
    (hb : Matrixb state rows columns = some b) : rows * columns < wordSize := by
  rcases Nat.lt_or_ge (rows * columns) wordSize with h | h
  · exact h
  · rw [Matrixb_overflow _ _ _ h] at hb; cases hb

theorem noOverflow_of_generate {rows columns : Nat} {A : List (List Nat)}
    (hA : generateInfluenceMatrix rows columns = some A) : rows * columns < wordSize := by
  rcases Nat.lt_or_ge (rows * columns) wordSize with h | h
  · exact h
  · rw [generateInfluenceMatrix_overflow _ _ h] at hA; cases hA

/-- The system that `openBox` hands to `gaussGF2` is a square bit system. -/
theorem pipeline_system {y x : Nat} {box : SecureBox} {A : List (List Nat)}
    {b : List Nat} (hsh : Shaped y x box.box) (hA : generateInfluenceMatrix y x = some A)
    (hb : Matrixb box.getState y x = some b) : BitMatrix (y * x) A ∧ BitVector (y * x) b := by
  have hN := noOverflow_of_generate hA
  obtain ⟨A2, e1, a1, a2⟩ := generateInfluenceMatrix_total y x hN
  obtain ⟨b2, e2, b1, b3⟩ := Matrixb_total box.getState y x hsh hN
  rw [hA] at e1; cases e1
  rw [hb] at e2; cases e2
  refine ⟨⟨a1, fun i hi j hj => ?_⟩, b1, fun i hi => ?_⟩
  · rw [influence_decode a2 hi hj]
    split <;> decide
  · obtain ⟨d1, d2, d3⟩ := cell_index_decode hi
    have := b3 _ _ d1 d2
    rw [d3] at this
    rw [this]
    unfold bitOf
    split <;> decide

theorem openBox_eq {y x : Nat} {box : SecureBox} {A : List (List Nat)} {b : List Nat}
    (hA : generateInfluenceMatrix y x = some A) (hb : Matrixb box.getState y x = some b) :
    openBox y x box =
      if (gaussGF2 A b).isEmpty then some ⟨true, [], box⟩
      else some ⟨(applyToggles y x (gaussGF2 A b) box).1.isLocked,
        (applyToggles y x (gaussGF2 A b) box).2, (applyToggles y x (gaussGF2 A b) box).1⟩ := by
  unfold openBox
  rw [hb, hA]
  rfl

/-- A non-empty result of `gaussGF2` in the pipeline unlocks the grid. -/
theorem pipeline_unlocks (y x : Nat) (box : SecureBox) (A : List (List Nat))
    (b : List Nat) (hy : box.ySize = y) (hx : box.xSize = x) (hsh : Shaped y x box.box)
    (hA : generateInfluenceMatrix y x = some A) (hb : Matrixb box.getState y x = some b)
    (hne : gaussGF2 A b ≠ []) :
    (∀ r c, r < y → c < x → rd2 (applyToggles y x (gaussGF2 A b) box).1.box r c = false) ∧
    (applyToggles y x (gaussGF2 A b) box).1.isLocked = false ∧
    ∃ out, openBox y x box = some out ∧ out.locked = false ∧
      out.final = (applyToggles y x (gaussGF2 A b) box).1 := by
  obtain ⟨sA, sb⟩ := pipeline_system hsh hA hb
  have hsol : Solves A (gaussGF2 A b) b := by
    rcases gaussGF2_cases sA sb with h | h
    · exact absurd h.1 hne
    · exact h
  have hclear := applyToggles_clears y x (gaussGF2 A b) box A b hy hx hsh hA hb hsol
  obtain ⟨t1, t2, _, _⟩ := applyToggles_spec y x (gaussGF2 A b) box hy hx hsh
    (noOverflow_of_generate hA) (rd_lt_two_of_bitVector hsol.1)
  have hlock : (applyToggles y x (gaussGF2 A b) box).1.isLocked = false := by
    rw [isLocked_false_iff, t1, t2]
    exact hclear
  have hemp : (gaussGF2 A b).isEmpty = false := by
    cases e : gaussGF2 A b with
    | nil => exact absurd e hne
    | cons _ _ => rfl
  refine ⟨hclear, hlock, ⟨false, (applyToggles y x (gaussGF2 A b) box).2,
    (applyToggles y x (gaussGF2 A b) box).1⟩, ?_, rfl, rfl⟩
  rw [openBox_eq hA hb, hemp, hlock]
  rfl

theorem rd_replicate_zero (n j : Nat) : rd (List.replicate n 0) j = 0 := by
  unfold rd
  rw [List.getD_eq_getElem?_getD, List.getElem?_replicate]
  split <;> rfl

theorem dotGF2_zero (n : Nat) (row : List Nat) : dotGF2 n row (List.replicate n 0) = 0 := by
  unfold dotGF2
  refine forLoop_inv (fun _ (acc : Nat) => acc = 0) 0 n _ 0 (Nat.zero_le _) rfl ?_
  intro m acc _ _ h
  rw [h, rd_replicate_zero]
  simp

/-- The zero vector solves a system whose right-hand side is zero. -/
theorem solves_zero {n : Nat} {A : List (List Nat)} {b : List Nat} (hA : A.length = n)
    (hb : ∀ i, i < n → rd b i = 0) : Solves A (List.replicate n 0) b := by
  unfold Solves BitVector
  rw [hA]
  refine ⟨⟨by simp, fun i _ => by rw [rd_replicate_zero]; decide⟩, fun i hi => ?_⟩
  rw [dotGF2_zero, hb i hi]

/-- In the pipeline on a grid with at least one cell, an empty result of `gaussGF2`
means that some cell of the grid is set. -/
theorem pipeline_empty_cell_set {y x : Nat} {box : SecureBox} {A : List (List Nat)}
    {b : List Nat} (hy1 : 1 ≤ y) (hx1 : 1 ≤ x) (hsh : Shaped y x box.box)
    (hA : generateInfluenceMatrix y x = some A) (hb : Matrixb box.getState y x = some b)
    (he : gaussGF2 A b = []) : ∃ r c, r < y ∧ c < x ∧ rd2 box.box r c = true := by
  by_contra hno
  have hfalse : ∀ r c, r < y → c < x → rd2 box.box r c = false := fun r c hr hc => by
    cases e : rd2 box.box r c with
    | false => rfl
    | true => exact absurd ⟨r, c, hr, hc, e⟩ hno
  obtain ⟨sA, sb⟩ := pipeline_system hsh hA hb
  have hN := noOverflow_of_generate hA
  obtain ⟨b2, e2, _, b3⟩ := Matrixb_total box.getState y x hsh hN
  rw [hb] at e2; cases e2
  have hpos : 0 < y * x := Nat.mul_pos hy1 hx1
  have hzero : ∀ i, i < y * x → rd b i = 0 := fun i hi => by
    obtain ⟨d1, d2, d3⟩ := cell_index_decode hi
    have := b3 _ _ d1 d2
    rw [d3] at this
    rw [this]
    show bitOf (rd2 box.box _ _) = 0
    rw [hfalse _ _ d1 d2]
    rfl
  rcases gaussGF2_cases sA sb with h | h
  · exact h.2.2 _ (solves_zero sA.1.1 hzero)
  · have := h.1.1
    rw [he, sA.1.1] at this
    simp only [List.length_nil] at this
    omega

/-- C3: when `gaussGF2`, run on the influence matrix of a `y`×`x` grid and on the
flattened grid, returns a non-empty vector, applying `toggle(i / x, i % x)` for every
`i` with `sol[i] = 1` leaves every cell false, `isLocked` is false, and `openBox`
returns false. -/
theorem openBox_solution_unlocks (y x : Nat) (box : SecureBox) (A : List (List Nat))
    (b : List Nat) (hy : box.ySize = y) (hx : box.xSize = x) (hsh : Shaped y x box.box)
    (hA : generateInfluenceMatrix y x = some A) (hb : Matrixb box.getState y x = some b)
    (hne : gaussGF2 A b ≠ []) :
    (∀ r c, r < y → c < x → rd2 (applyToggles y x (gaussGF2 A b) box).1.box r c = false) ∧
    (applyToggles y x (gaussGF2 A b) box).1.isLocked = false ∧
    ∃ out, openBox y x box = some out ∧ out.locked = false ∧
      out.final = (applyToggles y x (gaussGF2 A b) box).1 :=
  pipeline_unlocks y x box A b hy hx hsh hA hb hne

/-- C3 at the 2×2 grid with the diagonal set: the solver returns `[1, 0, 0, 1]`. -/
theorem openBox_solution_unlocks_witness :
    (∀ r c, r < 2 → c < 2 → rd2 (applyToggles 2 2 (gaussGF2
      [[1, 1, 1, 0], [1, 1, 0, 1], [1, 0, 1, 1], [0, 1, 1, 1]] [1, 0, 0, 1]) diagonalBox).1.box
        r c = false) ∧
    (applyToggles 2 2 (gaussGF2 [[1, 1, 1, 0], [1, 1, 0, 1], [1, 0, 1, 1], [0, 1, 1, 1]]
      [1, 0, 0, 1]) diagonalBox).1.isLocked = false ∧
    ∃ out, openBox 2 2 diagonalBox = some out ∧ out.locked = false ∧
      out.final = (applyToggles 2 2 (gaussGF2
        [[1, 1, 1, 0], [1, 1, 0, 1], [1, 0, 1, 1], [0, 1, 1, 1]] [1, 0, 0, 1]) diagonalBox).1 :=
  openBox_solution_unlocks 2 2 diagonalBox
    [[1, 1, 1, 0], [1, 1, 0, 1], [1, 0, 1, 1], [0, 1, 1, 1]] [1, 0, 0, 1]
    rfl rfl (by decide) (by decide) (by decide) (by decide)

/-- C4 fails on the 1×2 grid with one cell set: both toggles flip both cells, so no
toggle set clears it; `openBox` issues no toggle and returns true with the cell set. -/
theorem openBox_unlocks_every_grid_counterexample :
    (1 ≤ 1 ∧ 1 ≤ 2 ∧ Shaped 1 2 oneByTwoBox.box) ∧
    openBox 1 2 oneByTwoBox = some ⟨true, [], oneByTwoBox⟩ ∧
    ¬ ∃ out, openBox 1 2 oneByTwoBox = some out ∧ out.locked = false ∧
      ∀ r c, r < 1 → c < 2 → rd2 out.final.box r c = false := by
  have h : openBox 1 2 oneByTwoBox = some ⟨true, [], oneByTwoBox⟩ := by decide
  refine ⟨by decide, h, ?_⟩
  rintro ⟨out, h1, h2, _⟩
  rw [h] at h1
  cases h1
  cases h2

/-- C4 as amended: for a `y`×`x` grid with `y, x >= 1` whose system `A·x = b`, built
by the pipeline from the influence matrix and the flattened grid, has a solution,
`openBox` ends with every cell false and returns false. -/
theorem openBox_unlocks_solvable_grid (y x : Nat) (box : SecureBox) (hy1 : 1 ≤ y)
    (hx1 : 1 ≤ x) (hy : box.ySize = y) (hx : box.xSize = x) (hsh : Shaped y x box.box)
    (hsol : ∃ A b x0, generateInfluenceMatrix y x = some A ∧
      Matrixb box.getState y x = some b ∧ Solves A x0 b) :
    ∃ out, openBox y x box = some out ∧ out.locked = false ∧
      ∀ r c, r < y → c < x → rd2 out.final.box r c = false := by
  obtain ⟨A, b, x0, hA, hb, hx0⟩ := hsol
  obtain ⟨sA, sb⟩ := pipeline_system hsh hA hb
  have hne : gaussGF2 A b ≠ [] := by
    intro he
    rcases gaussGF2_cases sA sb with h | h
    · exact h.2.2 x0 hx0
    · have := h.1.1
      rw [he, sA.1.1] at this
      have hpos : 0 < y * x := Nat.mul_pos hy1 hx1
      simp only [List.length_nil] at this
      omega
  obtain ⟨h1, _, out, h3, h4, h5⟩ := pipeline_unlocks y x box A b hy hx hsh hA hb hne
  exact ⟨out, h3, h4, by rw [h5]; exact h1⟩

/-- C4 as amended, at a 2×3 grid that the toggles (0,1), (0,2), (1,0), (1,1) clear. -/
theorem openBox_unlocks_solvable_grid_witness :
    ∃ out, openBox 2 3 twoByThreeBox = some out ∧ out.locked = false ∧
      ∀ r c, r < 2 → c < 3 → rd2 out.final.box r c = false :=
  openBox_unlocks_solvable_grid 2 3 twoByThreeBox (by decide) (by decide) rfl rfl (by decide)
    ⟨[[1, 1, 1, 1, 0, 0], [1, 1, 1, 0, 1, 0], [1, 1, 1, 0, 0, 1], [1, 0, 0, 1, 1, 1],
      [0, 1, 0, 1, 1, 1], [0, 0, 1, 1, 1, 1]], [1, 1, 0, 0, 1, 1], [0, 1, 1, 1, 1, 0],
      by decide, by decide, by decide⟩

/-- C5: on a `y`×`x` grid with `y, x >= 1`, `openBox` returns (it does whenever `y * x`
fits in a `uint32_t`), and the flag it returns is true exactly when some cell of the
grid is set at the end, also on the branch that returns true without calling
`isLocked`. -/
theorem openBox_flag_iff_cell_set (y x : Nat) (box : SecureBox) (hy1 : 1 ≤ y) (hx1 : 1 ≤ x)
    (hy : box.ySize = y) (hx : box.xSize = x) (hsh : Shaped y x box.box) :
    (y * x < 2 ^ 32 → (openBox y x box).isSome = true) ∧
    ∀ out, openBox y x box = some out →
      (out.locked = true ↔ ∃ r c, r < y ∧ c < x ∧ rd2 out.final.box r c = true) := by
  constructor
  · intro hN
    obtain ⟨A, hA, _⟩ := generateInfluenceMatrix_total y x hN
    obtain ⟨b, hb, _⟩ := Matrixb_total box.getState y x hsh hN
    rw [openBox_eq hA hb]
    split <;> rfl
  · intro out hout
    cases hb : Matrixb box.getState y x with
    | none => rw [openBox, hb] at hout; cases hout
    | some b =>
      cases hA : generateInfluenceMatrix y x with
      | none => rw [openBox, hb, hA] at hout; cases hout
      | some A =>
        rw [openBox_eq hA hb] at hout
        cases he : gaussGF2 A b with
        | nil =>
          rw [he] at hout
          cases hout
          exact ⟨fun _ => pipeline_empty_cell_set hy1 hx1 hsh hA hb he, fun _ => rfl⟩
        | cons v vs =>
          rw [he] at hout
          cases hout
          have hne : gaussGF2 A b ≠ [] := by rw [he]; exact List.cons_ne_nil _ _
          obtain ⟨sA, sb⟩ := pipeline_system hsh hA hb
          have hsol : Solves A (gaussGF2 A b) b := by
            rcases gaussGF2_cases sA sb with h | h
            · exact absurd h.1 hne
            · exact h
          obtain ⟨t1, t2, _, _⟩ := applyToggles_spec y x (gaussGF2 A b) box hy hx hsh
            (noOverflow_of_generate hA) (rd_lt_two_of_bitVector hsol.1)
          rw [he] at t1 t2
          show (applyToggles y x (v :: vs) box).1.isLocked = true ↔ _
          rw [isLocked_iff, t1, t2]

/-- C5 at the 2×1 grid with one cell set, where `gaussGF2` returns the empty vector:
the run returns true and cell (0, 0) is still set. -/
theorem openBox_flag_iff_cell_set_witness :
    (2 * 1 < 2 ^ 32 → (openBox 2 1 twoByOneBox).isSome = true) ∧
    ((⟨true, [], twoByOneBox⟩ : Outcome).locked = true ↔
      ∃ r c, r < 2 ∧ c < 1 ∧ rd2 (⟨true, [], twoByOneBox⟩ : Outcome).final.box r c = true) :=
  ⟨(openBox_flag_iff_cell_set 2 1 twoByOneBox (by decide) (by decide) rfl rfl (by decide)).1,
    (openBox_flag_iff_cell_set 2 1 twoByOneBox (by decide) (by decide) rfl rfl (by decide)).2
      ⟨true, [], twoByOneBox⟩ (by decide)⟩

/-- C6: when `gaussGF2` returns the empty vector in the pipeline, `openBox` issues no
toggle, leaves the grid as it was and returns true. -/
theorem openBox_unsolvable_no_toggle (y x : Nat) (box : SecureBox) (A : List (List Nat))
    (b : List Nat) (hA : generateInfluenceMatrix y x = some A)
    (hb : Matrixb box.getState y x = some b) (he : gaussGF2 A b = []) :
    ∃ out, openBox y x box = some out ∧ out.locked = true ∧ out.toggles = [] ∧
      out.final = box := by
  refine ⟨⟨true, [], box⟩, ?_, rfl, rfl, rfl⟩
  rw [openBox_eq hA hb, he]
  rfl

/-- C6 at the 1×3 grid with one cell set: the influence matrix is all ones and the
system has no solution. -/
theorem openBox_unsolvable_no_toggle_witness :
    ∃ out, openBox 1 3 oneByThreeBox = some out ∧ out.locked = true ∧ out.toggles = [] ∧
      out.final = oneByThreeBox :=
  openBox_unsolvable_no_toggle 1 3 oneByThreeBox [[1, 1, 1], [1, 1, 1], [1, 1, 1]] [1, 0, 0]
    (by decide) (by decide) (by decide)

/-! ## The builder, the sampler and the toggle -/

/-- C7: when `rows * columns` is below `2 ^ 32`, `generateInfluenceMatrix rows columns`
is a square matrix of side `rows * columns`, every row has that length, the entry
`A[i][j]` is 1 if `i / columns = j / columns` or `i % columns = j % columns` and 0
otherwise, and every diagonal entry is 1. -/
theorem generateInfluenceMatrix_entries (rows columns : Nat) (hN : rows * columns < 2 ^ 32) :
    ∃ A, generateInfluenceMatrix rows columns = some A ∧ A.length = rows * columns ∧
      (∀ i, i < rows * columns → (A.getD i []).length = rows * columns) ∧
      (∀ i j, i < rows * columns → j < rows * columns →
        rd2 A i j = if i / columns = j / columns ∨ i % columns = j % columns then 1 else 0) ∧
      ∀ i, i < rows * columns → rd2 A i i = 1 := by
  obtain ⟨A, hA, a1, a2⟩ := generateInfluenceMatrix_total rows columns hN
  refine ⟨A, hA, a1.1, a1.2, fun i j hi hj => influence_decode a2 hi hj, fun i hi => ?_⟩
  rw [influence_decode a2 hi hi, if_pos (Or.inl rfl)]

/-- C7 at a grid of 2 rows and 3 columns. -/
theorem generateInfluenceMatrix_entries_witness :
    ∃ A, generateInfluenceMatrix 2 3 = some A ∧ A.length = 2 * 3 ∧
      (∀ i, i < 2 * 3 → (A.getD i []).length = 2 * 3) ∧
      (∀ i j, i < 2 * 3 → j < 2 * 3 →
        rd2 A i j = if i / 3 = j / 3 ∨ i % 3 = j % 3 then 1 else 0) ∧
      ∀ i, i < 2 * 3 → rd2 A i i = 1 :=
  generateInfluenceMatrix_entries 2 3 (by decide)

/-- C8: the matrix `A` that `generateInfluenceMatrix rows columns` returns is symmetric:
`A[i][j] = A[j][i]` for all `i, j < rows * columns`. -/
theorem generateInfluenceMatrix_symmetric (rows columns : Nat) (A : List (List Nat))
    (hA : generateInfluenceMatrix rows columns = some A) (i j : Nat)
    (hi : i < rows * columns) (hj : j < rows * columns) : rd2 A i j = rd2 A j i := by
  obtain ⟨A2, e, _, a2⟩ := generateInfluenceMatrix_total rows columns (noOverflow_of_generate hA)
  rw [hA] at e; cases e
  rw [influence_decode a2 hi hj, influence_decode a2 hj hi]
  by_cases h : i / columns = j / columns ∨ i % columns = j % columns
  · rw [if_pos h, if_pos (by omega)]
  · rw [if_neg h, if_neg (by omega)]

/-- C8 at the 3×2 grid, entries (1, 4) and (4, 1). -/
theorem generateInfluenceMatrix_symmetric_witness :
    rd2 ([[1, 1, 1, 0, 1, 0], [1, 1, 0, 1, 0, 1], [1, 0, 1, 1, 1, 0], [0, 1, 1, 1, 0, 1],
      [1, 0, 1, 0, 1, 1], [0, 1, 0, 1, 1, 1]] : List (List Nat)) 1 4 =
    rd2 ([[1, 1, 1, 0, 1, 0], [1, 1, 0, 1, 0, 1], [1, 0, 1, 1, 1, 0], [0, 1, 1, 1, 0, 1],
      [1, 0, 1, 0, 1, 1], [0, 1, 0, 1, 1, 1]] : List (List Nat)) 4 1 :=
  generateInfluenceMatrix_symmetric 3 2 _ (by decide) 1 4 (by decide) (by decide)

/-- C9 fails at a snapshot of 65536 rows of 65536 cells: `columns * rows` wraps to 0 in
`numberOfCells`, the vector is created empty and the first write `b[0]` falls outside
it, so `Matrixb` returns no vector of length `65536 * 65536`. -/
theorem Matrixb_flattens_counterexample :
    Shaped 65536 65536 (List.replicate 65536 (List.replicate 65536 false)) ∧
    (65536 * 65536) % wordSize = 0 ∧
    Matrixb (List.replicate 65536 (List.replicate 65536 false)) 65536 65536 = none ∧
    ¬ ∃ b, Matrixb (List.replicate 65536 (List.replicate 65536 false)) 65536 65536 = some b ∧
      b.length = 65536 * 65536 := by
  have h : Matrixb (List.replicate 65536 (List.replicate 65536 false)) 65536 65536 = none :=
    Matrixb_overflow _ _ _ (by decide)
  refine ⟨shaped_replicate _ _ _, by decide, h, ?_⟩
  rintro ⟨b, hb, _⟩
  rw [h] at hb
  cases hb

/-- C9 as amended: for `rows * columns` below `2 ^ 32` and a snapshot with `rows` rows of
`columns` cells each, `Matrixb` returns a vector of length `rows * columns` that holds
1 at index `r * columns + c` if `state[r][c]` is true and 0 if it is false, so that
every entry is 0 or 1. -/
theorem Matrixb_flattens (state : List (List Bool)) (rows columns : Nat)
    (hst : Shaped rows columns state) (hN : rows * columns < 2 ^ 32) :
    ∃ b, Matrixb state rows columns = some b ∧
      b.length = rows * columns ∧
      (∀ r c, r < rows → c < columns →
        rd b (r * columns + c) = if rd2 state r c = true then 1 else 0) ∧
      ∀ k, k < rows * columns → rd b k = 0 ∨ rd b k = 1 := by
  obtain ⟨b, hb, b1, b3⟩ := Matrixb_total state rows columns hst hN
  refine ⟨b, hb, b1, fun r c hr hc => b3 r c hr hc, fun k hk => ?_⟩
  obtain ⟨d1, d2, d3⟩ := cell_index_decode hk
  have := b3 _ _ d1 d2
  rw [d3] at this
  rw [this]
  unfold bitOf
  split
  · exact Or.inr rfl
  · exact Or.inl rfl

/-- C9 as amended, at a 2×3 snapshot. -/
theorem Matrixb_flattens_witness :
    ∃ b, Matrixb [[true, false, true], [false, false, true]] 2 3 = some b ∧
      b.length = 2 * 3 ∧
      (∀ r c, r < 2 → c < 3 →
        rd b (r * 3 + c) =
          if rd2 [[true, false, true], [false, false, true]] r c = true then 1 else 0) ∧
      ∀ k, k < 2 * 3 → rd b k = 0 ∨ rd b k = 1 :=
  Matrixb_flattens [[true, false, true], [false, false, true]] 2 3 (by decide) (by decide)

/-- C10: on a `ySize`×`xSize` grid, `toggle(y, x)` at an in-range coordinate negates
every cell `(r, c)` with `r = y` or `c = x`, the cell `(y, x)` itself included, once;
it leaves every cell with `r ≠ y` and `c ≠ x` unchanged; and it keeps the dimensions. -/
theorem toggle_negates_row_and_column (s : SecureBox) (y x : Nat)
    (hs : Shaped s.ySize s.xSize s.box) (hy : y < s.ySize) (hx : x < s.xSize) :
    (∀ r c, r < s.ySize → c < s.xSize → (r = y ∨ c = x) →
      rd2 (s.toggle y x).box r c = !(rd2 s.box r c)) ∧
    rd2 (s.toggle y x).box y x = !(rd2 s.box y x) ∧
    (∀ r c, r < s.ySize → c < s.xSize → r ≠ y → c ≠ x →
      rd2 (s.toggle y x).box r c = rd2 s.box r c) ∧
    (s.toggle y x).ySize = s.ySize ∧ (s.toggle y x).xSize = s.xSize ∧
    Shaped s.ySize s.xSize (s.toggle y x).box := by
  obtain ⟨t1, t2⟩ := toggle_cells s y x hs hy hx
  refine ⟨fun r c hr hc h => ?_, ?_, fun r c hr hc h1 h2 => ?_, rfl, rfl, t1⟩
  · rw [t2 r c hr hc, if_pos h]
  · rw [t2 y x hy hx, if_pos (Or.inl rfl)]
  · rw [t2 r c hr hc, if_neg (by omega)]

/-- C10 at the 2×3 grid `[[1, 1, 0], [0, 1, 1]]` and the coordinate (0, 1). -/
theorem toggle_negates_row_and_column_witness :
    (∀ r c, r < twoByThreeBox.ySize → c < twoByThreeBox.xSize → (r = 0 ∨ c = 1) →
      rd2 (twoByThreeBox.toggle 0 1).box r c = !(rd2 twoByThreeBox.box r c)) ∧
    rd2 (twoByThreeBox.toggle 0 1).box 0 1 = !(rd2 twoByThreeBox.box 0 1) ∧
    (∀ r c, r < twoByThreeBox.ySize → c < twoByThreeBox.xSize → r ≠ 0 → c ≠ 1 →
      rd2 (twoByThreeBox.toggle 0 1).box r c = rd2 twoByThreeBox.box r c) ∧
    (twoByThreeBox.toggle 0 1).ySize = twoByThreeBox.ySize ∧
    (twoByThreeBox.toggle 0 1).xSize = twoByThreeBox.xSize ∧
    Shaped twoByThreeBox.ySize twoByThreeBox.xSize (twoByThreeBox.toggle 0 1).box :=
  toggle_negates_row_and_column twoByThreeBox 0 1 (by decide) (by decide) (by decide)

/-! ## Sequences of toggles -/

/-- Two grids of the same shape with the same cells are equal. -/
theorem shaped_ext {α : Type} [Inhabited α] {R C : Nat} {A B : List (List α)}
    (hA : Shaped R C A) (hB : Shaped R C B)
    (h : ∀ i j, i < R → j < C → rd2 A i j = rd2 B i j) : A = B := by
  refine List.ext_getElem (by rw [hA.1, hB.1]) (fun i h1 h2 => ?_)
  have hi : i < R := by rw [← hA.1]; exact h1
  have e1 := hA.2 i hi
  have e2 := hB.2 i hi
  rw [List.getD_eq_getElem _ _ h1] at e1
  rw [List.getD_eq_getElem _ _ h2] at e2
  refine List.ext_getElem (by rw [e1, e2]) (fun j h3 h4 => ?_)
  have hj : j < C := by rw [← e1]; exact h3
  have := h i j hi hj
  unfold rd2 at this
  rw [List.getD_eq_getElem _ _ h1, List.getD_eq_getElem _ _ h2, List.getD_eq_getElem _ _ h3,
    List.getD_eq_getElem _ _ h4] at this
  exact this

theorem cellBit_inj (a b : Bool) (h : cellBit a = cellBit b) : a = b := by
  cases a <;> cases b <;> first | rfl | (revert h; decide)

/-- A toggle adds 1 over GF(2) to the cells of its row and of its column. -/
theorem toggle_cellBit (s : SecureBox) (y x : Nat) (hs : Shaped s.ySize s.xSize s.box)
    (hy : y < s.ySize) (hx : x < s.xSize) (r c : Nat) (hr : r < s.ySize) (hc : c < s.xSize) :
    cellBit (rd2 (s.toggle y x).box r c) =
      cellBit (rd2 s.box r c) + (if r = y ∨ c = x then 1 else 0) := by
  rw [(toggle_cells s y x hs hy hx).2 r c hr hc]
  split
  · exact cellBit_not _
  · simp

/-- A sequence of in-range toggles adds to every cell, over GF(2), the number of
toggles of the sequence that share its row or its column. -/
theorem toggleAll_cells (l : List (Nat × Nat)) :
    ∀ s : SecureBox, Shaped s.ySize s.xSize s.box → InRange s l →
      (s.toggleAll l).ySize = s.ySize ∧ (s.toggleAll l).xSize = s.xSize ∧
      Shaped s.ySize s.xSize (s.toggleAll l).box ∧
      ∀ r c, r < s.ySize → c < s.xSize →
        cellBit (rd2 (s.toggleAll l).box r c) = cellBit (rd2 s.box r c) +
          ((l.countP (fun p => decide (p.1 = r ∨ p.2 = c)) : Nat) : ZMod 2) := by
  induction l with
  | nil =>
    intro s hs _
    exact ⟨rfl, rfl, hs, fun r c _ _ => by simp [SecureBox.toggleAll]⟩
  | cons p l ih =>
    intro s hs hl
    have hp := hl p (List.mem_cons_self _ _)
    have hl2 : InRange (s.toggle p.1 p.2) l := fun q hq => hl q (List.mem_cons_of_mem _ hq)
    have ht := toggle_cells s p.1 p.2 hs hp.1 hp.2
    obtain ⟨i1, i2, i3, i4⟩ := ih (s.toggle p.1 p.2) ht.1 hl2
    have e : s.toggleAll (p :: l) = (s.toggle p.1 p.2).toggleAll l := rfl
    rw [e]
    refine ⟨i1, i2, i3, fun r c hr hc => ?_⟩
    rw [i4 r c hr hc, toggle_cellBit s p.1 p.2 hs hp.1 hp.2 r c hr hc, List.countP_cons]
    by_cases h : r = p.1 ∨ c = p.2
    · have h2 : p.1 = r ∨ p.2 = c := by omega
      simp only [h, h2, if_true, decide_True, Nat.cast_add, Nat.cast_one]
      ring
    · have h2 : ¬ (p.1 = r ∨ p.2 = c) := by omega
      simp only [h, h2, if_false, decide_False, Nat.cast_add, Nat.cast_zero, add_zero]
      simp

/-- Two sequences of in-range toggles whose counts per row-or-column agree modulo 2
reach the same grid. -/
theorem toggleAll_eq_of_parity (s : SecureBox) (l1 l2 : List (Nat × Nat))
    (hs : Shaped s.ySize s.xSize s.box) (h1 : InRange s l1) (h2 : InRange s l2)
    (hp : ∀ r c, r < s.ySize → c < s.xSize →
      ((l1.countP (fun p => decide (p.1 = r ∨ p.2 = c)) : Nat) : ZMod 2) =
        ((l2.countP (fun p => decide (p.1 = r ∨ p.2 = c)) : Nat) : ZMod 2)) :
    s.toggleAll l1 = s.toggleAll l2 := by
  obtain ⟨a1, a2, a3, a4⟩ := toggleAll_cells l1 s hs h1
  obtain ⟨b1, b2, b3, b4⟩ := toggleAll_cells l2 s hs h2
  have hbox : (s.toggleAll l1).box = (s.toggleAll l2).box := by
    refine shaped_ext a3 b3 (fun r c hr hc => cellBit_inj _ _ ?_)
    rw [a4 r c hr hc, b4 r c hr hc, hp r c hr hc]
  cases h3 : s.toggleAll l1 with
  | mk bx1 y1 x1 =>
    cases h4 : s.toggleAll l2 with
    | mk bx2 y2 x2 =>
      rw [h3] at a1 a2 hbox
      rw [h4] at b1 b2 hbox
      simp only at a1 a2 b1 b2 hbox
      rw [hbox, a1, a2, b1, b2]

/-! ## Algebra of the toggle -/

/-- C11: on a grid of the stored dimensions, applying `toggle(r, c)` twice in
succession at an in-range coordinate gives back the grid, cell for cell. -/
theorem toggle_twice_restores (s : SecureBox) (r c : Nat)
    (hs : Shaped s.ySize s.xSize s.box) (hr : r < s.ySize) (hc : c < s.xSize) :
    (∀ y x, y < s.ySize → x < s.xSize →
      rd2 ((s.toggle r c).toggle r c).box y x = rd2 s.box y x) ∧
    (s.toggle r c).toggle r c = s := by
  have hin : InRange s [(r, c), (r, c)] := fun p hp => by
    simp only [List.mem_cons, List.mem_singleton, List.not_mem_nil, or_false, or_self] at hp
    rw [hp]; exact ⟨hr, hc⟩
  have key : s.toggleAll [(r, c), (r, c)] = s.toggleAll [] :=
    toggleAll_eq_of_parity s _ _ hs hin (fun p hp => absurd hp (List.not_mem_nil _))
      (fun y x _ _ => by
        by_cases h : r = y ∨ c = x
        · simp only [List.countP_cons, h, decide_True, if_true, List.countP_nil]
          decide
        · simp [List.countP_cons, h])
  have key2 : (s.toggle r c).toggle r c = s := key
  exact ⟨fun y x _ _ => by rw [key2], key2⟩

/-- C11 at the 2×3 grid `[[1, 1, 0], [0, 1, 1]]` and the coordinate (1, 2). -/
theorem toggle_twice_restores_witness :
    (∀ y x, y < twoByThreeBox.ySize → x < twoByThreeBox.xSize →
      rd2 ((twoByThreeBox.toggle 1 2).toggle 1 2).box y x = rd2 twoByThreeBox.box y x) ∧
    (twoByThreeBox.toggle 1 2).toggle 1 2 = twoByThreeBox :=
  toggle_twice_restores twoByThreeBox 1 2 (by decide) (by decide) (by decide)

/-- C12: on a grid of the stored dimensions, two lists of in-range toggle coordinates
that are permutations of one another, each applied in order, give the same final
grid; in particular two in-range toggles commute. -/
theorem toggleAll_perm (s : SecureBox) (l1 l2 : List (Nat × Nat))
    (hs : Shaped s.ySize s.xSize s.box) (h1 : InRange s l1) (hp : l1.Perm l2) :
    s.toggleAll l1 = s.toggleAll l2 ∧
    ∀ a b : Nat × Nat, a.1 < s.ySize → a.2 < s.xSize → b.1 < s.ySize → b.2 < s.xSize →
      (s.toggle a.1 a.2).toggle b.1 b.2 = (s.toggle b.1 b.2).toggle a.1 a.2 := by
  constructor
  · exact toggleAll_eq_of_parity s l1 l2 hs h1 (fun p hq => h1 p (hp.mem_iff.mpr hq))
      (fun r c _ _ => by rw [hp.countP_eq])
  · intro a b ha1 ha2 hb1 hb2
    have hab : InRange s [a, b] := fun p hq => by
      simp only [List.mem_cons, List.mem_singleton, List.not_mem_nil, or_false] at hq
      rcases hq with e | e
      · rw [e]; exact ⟨ha1, ha2⟩
      · rw [e]; exact ⟨hb1, hb2⟩
    have hba : InRange s [b, a] := fun p hq => hab p ((List.Perm.swap a b []).mem_iff.mp hq)
    exact toggleAll_eq_of_parity s [a, b] [b, a] hs hab hba
      (fun r c _ _ => by rw [(List.Perm.swap b a []).countP_eq])

/-- C12 at the 2×3 grid `[[1, 1, 0], [0, 1, 1]]` with three toggles in two orders. -/
theorem toggleAll_perm_witness :
    twoByThreeBox.toggleAll [(0, 1), (1, 2), (0, 0)] =
      twoByThreeBox.toggleAll [(0, 0), (0, 1), (1, 2)] ∧
    ∀ a b : Nat × Nat, a.1 < twoByThreeBox.ySize → a.2 < twoByThreeBox.xSize →
      b.1 < twoByThreeBox.ySize → b.2 < twoByThreeBox.xSize →
      (twoByThreeBox.toggle a.1 a.2).toggle b.1 b.2 =
        (twoByThreeBox.toggle b.1 b.2).toggle a.1 a.2 :=
  toggleAll_perm twoByThreeBox [(0, 1), (1, 2), (0, 0)] [(0, 0), (0, 1), (1, 2)]
    (by decide) (by decide) (by decide)

/-! ## Small grids -/

/-- C13: on the 1×1 grid, for the cell set and for the cell clear, `openBox` issues at
most one toggle call, ends with the cell false and returns false. -/
theorem openBox_oneByOne (v : Bool) :
    ∃ out, openBox 1 1 (oneByOneBox v) = some out ∧ out.locked = false ∧
      out.toggles.length ≤ 1 ∧ rd2 out.final.box 0 0 = false ∧
      out.final.isLocked = false := by
  cases v
  · exact ⟨⟨false, [], oneByOneBox false⟩, by decide, rfl, by decide, by decide, by decide⟩
  · exact ⟨⟨false, [(0, 0)], oneByOneBox false⟩, by decide, rfl, by decide, by decide,
      by decide⟩

/-- C14 fails: in the 2×2 grid a cell shares neither row nor column with the cell
diagonally opposite, so the four anti-diagonal entries of the matrix are 0. -/
theorem generateInfluenceMatrix_2x2_counterexample :
    generateInfluenceMatrix 2 2 = some influence2x2 ∧ rd2 influence2x2 0 3 = 0 ∧
    generateInfluenceMatrix 2 2 ≠ some allOnes4 := by
  decide

/-- C14 as amended: `generateInfluenceMatrix 2 2` is the 4×4 matrix with `A[i][j] = 0`
when `i + j = 3` (the two cells are diagonally opposite) and `A[i][j] = 1` otherwise. -/
theorem generateInfluenceMatrix_2x2 :
    ∃ A, generateInfluenceMatrix 2 2 = some A ∧ Shaped 4 4 A ∧
      ∀ i, i < 4 → ∀ j, j < 4 → rd2 A i j = if i + j = 3 then 0 else 1 := by
  exact ⟨influence2x2, by decide, by decide, by decide⟩

/-- C15: for the 2×2 grid whose flattened state is `[1, 0, 0, 1]`, `gaussGF2` on the
influence matrix of the grid returns a non-empty vector with an even number of ones,
and the toggles it prescribes leave a grid on which `isLocked` is false. -/
theorem openBox_diagonal_2x2 :
    Matrixb diagonalBox.getState 2 2 = some [1, 0, 0, 1] ∧
    ∃ A, generateInfluenceMatrix 2 2 = some A ∧ gaussGF2 A [1, 0, 0, 1] ≠ [] ∧
      ((gaussGF2 A [1, 0, 0, 1]).count 1) % 2 = 0 ∧
      (applyToggles 2 2 (gaussGF2 A [1, 0, 0, 1]) diagonalBox).1.isLocked = false ∧
      ∃ out, openBox 2 2 diagonalBox = some out ∧ out.locked = false := by
  refine ⟨by decide, influence2x2, by decide, by decide, by decide, by decide, ?_⟩
  exact ⟨⟨false, [(0, 0), (1, 1)], ⟨[[false, false], [false, false]], 2, 2⟩⟩, by decide, rfl⟩

/-! ## The empty result -/

/-- C16 fails at `n = 0`: `gaussGF2` returns the empty vector for the empty system,
and the empty vector solves it. -/
theorem gaussGF2_empty_unsolvable_counterexample :
    BitMatrix 0 [] ∧ BitVector 0 [] ∧ gaussGF2 [] [] = [] ∧ Solves [] [] [] := by
  decide

/-- C16 as amended: for a square bit matrix `A` of side `n >= 1` and a bit vector `b`
of length `n`, if `gaussGF2 A b` is the empty vector then no bit vector `x` of length
`n` satisfies `A·x = b` modulo 2. -/
theorem gaussGF2_empty_unsolvable (n : Nat) (A : List (List Nat)) (b : List Nat)
    (hn : 1 ≤ n) (hA : BitMatrix n A) (hb : BitVector n b) (he : gaussGF2 A b = []) :
    ¬ ∃ x, Solves A x b := by
  rcases gaussGF2_cases hA hb with h | h
  · rintro ⟨x, hx⟩
    exact h.2.2 x hx
  · have := h.1.1
    rw [he, hA.1.1] at this
    simp only [List.length_nil] at this
    omega

/-- C16 as amended, at the 2×2 all-ones matrix with `b = [1, 0]`. -/
theorem gaussGF2_empty_unsolvable_witness : ¬ ∃ x, Solves [[1, 1], [1, 1]] x [1, 0] :=
  gaussGF2_empty_unsolvable 2 [[1, 1], [1, 1]] [1, 0] (by decide) (by decide) (by decide)
    (by decide)

/-! ## The zero right-hand side -/

/-- The back-substitution leaves at 0 every entry whose index is the pivot column of
no row. -/
theorem backSubst_free (n : Nat) (M : List (List Nat)) (j : Nat)
    (hj : ∀ r, r < n → pivotColOf n r M ≠ some j) : rd (backSubst n M) j = 0 := by
  unfold backSubst
  refine forDown_inv (fun _ (x : List Nat) => rd x j = 0) n (backStep n M)
    (List.replicate n 0) (rd_replicate_zero n j) ?_
  intro k x hk hx
  unfold backStep
  cases hp : pivotColOf n k M with
  | none => exact hx
  | some p =>
    simp only
    have hne : j ≠ p := fun e => hj k hk (by rw [hp, e])
    rcases Nat.lt_or_ge p x.length with h | h
    · rw [rd_set x p j _ h, if_neg hne]
      exact hx
    · rw [List.set_eq_of_length_le h]
      exact hx

theorem gaussGF2_eq_backSubst (A : List (List Nat)) (b : List Nat)
    (hne : gaussGF2 A b ≠ []) :
    gaussGF2 A b = backSubst A.length (elimLoop A.length (appendRhs A b)).1 := by
  unfold gaussGF2 at hne ⊢
  simp only at hne ⊢
  split
  · rename_i h
    rw [if_pos h] at hne
    exact absurd rfl hne
  · rfl

/-- A column that is a combination of the columns before it is the pivot column of no
row of the eliminated matrix of a solvable system. -/
theorem no_pivot_of_dependent {n : Nat} {A : List (List Nat)} {b : List Nat}
    (hA : BitMatrix n A) (hb : BitVector n b) (x0 : List Nat) (hx0 : Solves A x0 b)
    (j : Nat) (hj : j < n) (c : List Nat) (hc : BitVector j c)
    (hcomb : ∀ i, i < n → dotGF2 j (A.getD i []) c = rd2 A i j) (r : Nat) (hr : r < n) :
    pivotColOf n r (elimLoop n (appendRhs A b)).1 ≠ some j := by
  intro hp
  obtain ⟨a1, a2, a3⟩ := appendRhs_spec hA.1 b
  have hE := elimLoop_inv a1 (bits_appendRhs hA hb)
  have hx0b : BitVector n x0 := by rw [← hA.1.1]; exact hx0.1
  have hs0 : Sat (appendRhs A b) n (vec x0) := (solves_iff_sat hA hb hx0b).mp hx0
  have hrel : ∀ i, i < n → Finset.sum (Finset.range n)
      (fun k => ent (appendRhs A b) i k * relationVec j c k) = 0 := by
    intro i hi
    obtain ⟨_, d2⟩ := dotGF2_spec j (A.getD i []) c
      (fun k hk => hA.2 i hi k (by omega)) (rd_lt_two_of_bitVector hc)
    rw [hcomb i hi] at d2
    rw [← Finset.sum_range_add_sum_Ico _ (by omega : j + 1 ≤ n), Finset.sum_range_succ]
    have e1 : Finset.sum (Finset.range j)
        (fun k => ent (appendRhs A b) i k * relationVec j c k) =
        ((rd2 A i j : Nat) : ZMod 2) := by
      rw [d2]
      refine Finset.sum_congr rfl (fun k hk => ?_)
      have hkj : k < j := Finset.mem_range.mp hk
      unfold ent relationVec
      rw [a2 i k hi (by omega), if_pos hkj]
      rfl
    have e2 : Finset.sum (Finset.Ico (j + 1) n)
        (fun k => ent (appendRhs A b) i k * relationVec j c k) = 0 :=
      Finset.sum_eq_zero (fun k hk => by
        have := (Finset.mem_Ico.mp hk).1
        unfold relationVec
        rw [if_neg (by omega), if_neg (by omega), mul_zero])
    have e3 : ent (appendRhs A b) i j * relationVec j c j = ((rd2 A i j : Nat) : ZMod 2) := by
      unfold ent relationVec
      rw [a2 i j hi hj, if_neg (lt_irrefl _), if_pos rfl, mul_one]
    rw [e1, e2, e3, add_zero, add_self_zmod2]
  have hs1 : Sat (appendRhs A b) n (fun k => vec x0 k + relationVec j c k) := by
    intro i hi
    have h1 := hs0 i hi
    unfold RowSat at h1 ⊢
    have : Finset.sum (Finset.range n)
        (fun k => ent (appendRhs A b) i k * (vec x0 k + relationVec j c k)) =
        Finset.sum (Finset.range n) (fun k => ent (appendRhs A b) i k * vec x0 k) +
        Finset.sum (Finset.range n) (fun k => ent (appendRhs A b) i k * relationVec j c k) := by
      rw [← Finset.sum_add_distrib]
      exact Finset.sum_congr rfl (fun k _ => by ring)
    rw [this, h1, hrel i hi, add_zero]
  generalize elimLoop n (appendRhs A b) = st at hE hp
  obtain ⟨M, row⟩ := st
  simp only at hp
  have hM0 := (hE.sat (vec x0)).mpr hs0 r hr
  have hM1 := (hE.sat (fun k => vec x0 k + relationVec j c k)).mpr hs1 r hr
  unfold RowSat at hM0 hM1
  simp only at hM0 hM1
  have hsplit : Finset.sum (Finset.range n)
      (fun k => ent M r k * (vec x0 k + relationVec j c k)) =
      Finset.sum (Finset.range n) (fun k => ent M r k * vec x0 k) +
      Finset.sum (Finset.range n) (fun k => ent M r k * relationVec j c k) := by
    rw [← Finset.sum_add_distrib]
    exact Finset.sum_congr rfl (fun k _ => by ring)
  rw [hsplit, hM0] at hM1
  have hzero : Finset.sum (Finset.range n) (fun k => ent M r k * relationVec j c k) = 0 :=
    add_right_eq_self.mp hM1
  unfold pivotColOf at hp
  rw [List.find?_range_eq_some] at hp
  obtain ⟨hp1, _, hp3⟩ := hp
  have hone : rd2 M r j = 1 := of_decide_eq_true hp1
  have hbefore : ∀ k, k < j → rd2 M r k = 0 := fun k hk => by
    have h3 := hp3 k hk
    have h4 : rd2 M r k < 2 := hE.bits r k hr (by omega)
    simp only [Bool.not_eq_true', decide_eq_false_iff_not] at h3
    omega
  have hsingle : Finset.sum (Finset.range n) (fun k => ent M r k * relationVec j c k) = 1 := by
    rw [Finset.sum_eq_single j]
    · unfold ent relationVec
      rw [hone, if_neg (lt_irrefl _), if_pos rfl]
      simp
    · intro k _ hkj
      rcases Nat.lt_or_ge k j with h | h
      · unfold ent
        rw [hbefore k h]
        simp
      · unfold relationVec
        rw [if_neg (by omega), if_neg hkj, mul_zero]
    · intro h
      exact absurd (Finset.mem_range.mpr hj) h
  rw [hsingle] at hzero
  revert hzero
  decide

/-- C17: on an `n`×`n` bit matrix `A` and a bit vector `b` of length `n` for which
`gaussGF2` returns a vector of length `n`, the entry `x[j]` is 0 for every column `j`
of `A` that is a GF(2) combination, with coefficients `c`, of the columns before it
(for `j = 0`: a column of zeros). -/
theorem gaussGF2_free_variables_zero (n : Nat) (A : List (List Nat)) (b : List Nat)
    (hA : BitMatrix n A) (hb : BitVector n b) (hlen : (gaussGF2 A b).length = n)
    (j : Nat) (hj : j < n) (c : List Nat) (hc : BitVector j c)
    (hcomb : ∀ i, i < n → dotGF2 j (A.getD i []) c = rd2 A i j) :
    rd (gaussGF2 A b) j = 0 := by
  have hne : gaussGF2 A b ≠ [] := by
    intro e
    rw [e] at hlen
    simp only [List.length_nil] at hlen
    omega
  have hsol : Solves A (gaussGF2 A b) b := by
    rcases gaussGF2_cases hA hb with h | h
    · exact absurd h.1 hne
    · exact h
  rw [gaussGF2_eq_backSubst A b hne, hA.1.1]
  exact backSubst_free n _ j
    (fun r hr => no_pivot_of_dependent hA hb _ hsol j hj c hc hcomb r hr)

/-- C17 at a 3×3 system whose column 1 equals column 0: the solver returns `[1, 0, 0]`. -/
theorem gaussGF2_free_variables_zero_witness :
    rd (gaussGF2 [[1, 1, 0], [1, 1, 0], [0, 0, 1]] [1, 1, 0]) 1 = 0 :=
  gaussGF2_free_variables_zero 3 [[1, 1, 0], [1, 1, 0], [0, 0, 1]] [1, 1, 0]
    (by decide) (by decide) (by decide) 1 (by decide) [1] (by decide) (by decide)

/-! ## Solvable grids -/

end SecureBoxSolver
